import Mathlib

/-!
Verification of the `chainsaw` dependency-graph analyzer.

This file gives a shallow embedding, in Lean, of the parts of the Rust
source relevant to the specified properties:

* `src/graph.rs` — the indexed module/edge graph store (`ModuleGraph`,
  `add_module`, `add_edge`, accessors); machine integers (`u32` ids,
  `u64` sizes, `u128` mtimes) are modelled as `Nat`, which is faithful
  here because the store only ever assigns ids below the vector lengths
  and never performs wrapping arithmetic on them.
* `src/cache.rs` — the two-tier persistent parse cache (`ParseCache`,
  `load`, `lookup`, `insert`, `try_load_graph`, `save`).  Filesystem
  metadata reads are modelled by an explicit filesystem state
  `Fs : String → Option FsMeta`; `bitcode` (de)serialization is
  modelled by an abstract decoder plus a concrete flattening encoder.
* `src/parser.rs` and `src/lang/typescript/parser.rs` — the import
  extractor (`extract_from_decl`, `walk_stmt`, `walk_expr`).  The two
  files contain the same extraction logic (the `lang/typescript` copy
  only differs syntactically by Rust let-chains); a single embedding
  covers both.  The swc AST is embedded as inductive types carrying
  exactly the fields the walker reads.
* `src/walker.rs` — `build_graph`, the level-by-level BFS builder.
  The `rayon` parallel phases (`par_iter().map(...).collect()` and the
  ordered `filter_map` of phase 3) preserve index order by the rayon
  collection contract, so they are embedded as order-preserving `map` /
  `filterMap` over lists; all graph and cache mutation is serial in the
  source and is embedded as sequential folds.

Paths are plain strings treated as atoms (the source canonicalizes them
before they reach these components and never inspects their structure).  `HashMap`s are
embedded as association lists with single-binding-per-key insertion;
`HashSet`s as insertion-ordered duplicate-free lists.  The one place
where hash-container *iteration order* is observable — serialization of
the cache envelope, whose `HashMap`/`HashSet` iteration order in Rust
is randomized per process by `RandomState` — is modelled by an explicit
iteration-order parameter (a permutation) threaded into the encoder.
-/

namespace Chainsaw

/-! ## Data model (src/graph.rs) -/

/-- `EdgeKind` from graph.rs. -/
inductive EdgeKind where
  | Static
  | Dynamic
  | TypeOnly
deriving DecidableEq, Repr, BEq

/-- `Module` from graph.rs (`ModuleId` newtype flattened to `Nat`). -/
structure Module where
  id : Nat
  path : String
  size_bytes : Nat
  package : Option String
deriving DecidableEq, Repr

/-- `Edge` from graph.rs. `from`/`to` are Lean keywords, hence `fromId`/`toId`. -/
structure Edge where
  id : Nat
  fromId : Nat
  toId : Nat
  kind : EdgeKind
  specifier : String
deriving DecidableEq, Repr

/-- `ModuleGraph` from graph.rs.  The `path_to_id : HashMap<PathBuf, ModuleId>`
is embedded as an association list queried with `List.lookup`; keys are
inserted at most once (`add_module` checks before inserting).  The
`package_map` field is omitted: it is populated only by
`compute_package_info`, whose definition does not appear in graph.rs, and
no claim below concerns it. -/
structure ModuleGraph where
  modules : List Module
  edges : List Edge
  forward_adj : List (List Nat)
  path_to_id : List (String × Nat)
deriving DecidableEq, Repr

/-- `ModuleGraph::new`. -/
def ModuleGraph.new : ModuleGraph := ⟨[], [], [], []⟩

/-- `ModuleGraph::add_module`.  Returns the updated graph together with the
returned id (Rust mutates in place and returns the id). -/
def ModuleGraph.add_module (g : ModuleGraph) (path : String) (size_bytes : Nat)
    (package : Option String) : ModuleGraph × Nat :=
  match List.lookup path g.path_to_id with
  | some id => (g, id)
  | none =>
    let id := g.modules.length
    ({ modules := g.modules ++ [{ id := id, path := path, size_bytes := size_bytes,
                                  package := package }],
       edges := g.edges,
       forward_adj := g.forward_adj ++ [[]],
       path_to_id := g.path_to_id ++ [(path, id)] }, id)

/-- `ModuleGraph::add_edge`.  The dedup scan over the source module's
outgoing adjacency list is `List.find?`.  Rust indexes
`forward_adj[from]` and `edges[eid]` directly (a panic when out of
bounds); the embedding totalizes with `getD`/`get?` defaults that are
never hit for the in-bounds ids the theorems quantify over. -/
def ModuleGraph.add_edge (g : ModuleGraph) (f t : Nat) (kind : EdgeKind)
    (specifier : String) : ModuleGraph × Nat :=
  let adj := g.forward_adj.getD f []
  match adj.find? (fun eid =>
      match g.edges.get? eid with
      | some e => e.toId == t && e.kind == kind
      | none => false) with
  | some eid => (g, eid)
  | none =>
    let id := g.edges.length
    ({ modules := g.modules,
       edges := g.edges ++ [{ id := id, fromId := f, toId := t, kind := kind,
                              specifier := specifier }],
       forward_adj := g.forward_adj.set f (adj ++ [id]),
       path_to_id := g.path_to_id }, id)

/-- `ModuleGraph::module_count`. -/
def ModuleGraph.module_count (g : ModuleGraph) : Nat := g.modules.length

/-- `ModuleGraph::module(id).path`, totalized (Rust panics out of bounds). -/
def ModuleGraph.modulePath (g : ModuleGraph) (id : Nat) : String :=
  match g.modules.get? id with
  | some m => m.path
  | none => ""

/-- `ModuleGraph::outgoing_edges`, totalized (Rust panics out of bounds). -/
def ModuleGraph.outgoing_edges (g : ModuleGraph) (id : Nat) : List Nat :=
  g.forward_adj.getD id []

/-! ## Graph-store invariant -/

/-- The structural invariant of the graph store: parallel vectors stay in
sync, ids are dense and positional, all stored ids are in bounds, the
adjacency lists index exactly the edges leaving their module, and each
(from, to, kind) triple occurs at most once.  Adjacency lists are read
through `getD` (with `[]` for an out-of-range module id) so that indices
stay proof-free; together with `adj_len` this says exactly that every id
the graph hands out indexes safely. -/
structure ModuleGraph.WF (g : ModuleGraph) : Prop where
  adj_len : g.forward_adj.length = g.modules.length
  module_id : ∀ i (hi : i < g.modules.length), (g.modules[i]).id = i
  edge_id : ∀ e (he : e < g.edges.length), (g.edges[e]).id = e
  edge_src : ∀ ed ∈ g.edges, ed.fromId < g.modules.length
  edge_tgt : ∀ ed ∈ g.edges, ed.toId < g.modules.length
  adj_valid : ∀ f, ∀ eid ∈ g.forward_adj.getD f [], eid < g.edges.length
  adj_src : ∀ f, ∀ eid ∈ g.forward_adj.getD f [], ∀ (he : eid < g.edges.length),
    (g.edges[eid]).fromId = f
  adj_complete : ∀ e (he : e < g.edges.length),
    e ∈ g.forward_adj.getD ((g.edges[e]).fromId) []
  edge_unique : ∀ i j (hi : i < g.edges.length) (hj : j < g.edges.length),
    (g.edges[i]).fromId = (g.edges[j]).fromId →
    (g.edges[i]).toId = (g.edges[j]).toId →
    (g.edges[i]).kind = (g.edges[j]).kind → i = j

/-- Soundness and completeness of the `path_to_id` index with respect to the
modules vector. -/
structure ModuleGraph.IndexWF (g : ModuleGraph) : Prop where
  sound : ∀ p id, List.lookup p g.path_to_id = some id →
    ∃ h : id < g.modules.length, (g.modules[id]).path = p
  complete : ∀ i (hi : i < g.modules.length),
    List.lookup (g.modules[i]).path g.path_to_id = some i

/-- Graphs reachable from `ModuleGraph::new` by the two mutating operations.
`add_edge` is invoked only with module ids the same graph previously
returned (exactly the ids below `modules.len()`, since both operations
return such ids and the graph is append-only); calling it with any other
id panics in Rust. -/
inductive ModuleGraph.Reachable : ModuleGraph → Prop where
  | new : ModuleGraph.Reachable ModuleGraph.new
  | addModule (g : ModuleGraph) (p : String) (s : Nat) (pk : Option String) :
      ModuleGraph.Reachable g → ModuleGraph.Reachable (g.add_module p s pk).1
  | addEdge (g : ModuleGraph) (f t : Nat) (k : EdgeKind) (sp : String) :
      ModuleGraph.Reachable g → f < g.modules.length → t < g.modules.length →
      ModuleGraph.Reachable (g.add_edge f t k sp).1

theorem getD_eq_getElem {α : Type} (l : List α) (d : α) {i : Nat} (h : i < l.length) :
    l.getD i d = l[i] := by
  rw [List.getD_eq_getElem?_getD, List.getElem?_eq_getElem h]; rfl

theorem getD_append_lt {α : Type} (l₁ l₂ : List α) (d : α) (i : Nat)
    (h : i < l₁.length) : (l₁ ++ l₂).getD i d = l₁.getD i d := by
  simp [List.getD_eq_getElem?_getD, List.getElem?_append_left h]

theorem getD_append_ge {α : Type} (l₁ l₂ : List α) (d : α) (i : Nat)
    (h : l₁.length ≤ i) : (l₁ ++ l₂).getD i d = l₂.getD (i - l₁.length) d := by
  simp [List.getD_eq_getElem?_getD, List.getElem?_append_right h]

theorem getD_set {α : Type} (l : List α) (i j : Nat) (a d : α) :
    (l.set i a).getD j d =
      if i = j then (if i < l.length then a else l.getD j d) else l.getD j d := by
  by_cases hij : i = j
  · subst hij
    by_cases hi : i < l.length
    · simp [List.getD_eq_getElem?_getD, List.getElem?_set, hi]
    · simp only [List.getD_eq_getElem?_getD, List.getElem?_set, if_pos rfl, if_neg hi]
      rw [List.getElem?_eq_none (by omega)]
      simp
  · simp [List.getD_eq_getElem?_getD, List.getElem?_set, hij]

theorem ModuleGraph.wf_new : ModuleGraph.new.WF := by
  constructor <;> simp [ModuleGraph.new]

theorem ModuleGraph.indexwf_new : ModuleGraph.new.IndexWF := by
  constructor <;> simp [ModuleGraph.new]

/-- `List.lookup` distributes over append: the first list is consulted first. -/
theorem lookup_append {β : Type} (k : String) (l₁ l₂ : List (String × β)) :
    List.lookup k (l₁ ++ l₂) =
      match List.lookup k l₁ with
      | some v => some v
      | none => List.lookup k l₂ := by
  induction l₁ with
  | nil => simp
  | cons hd tl ih =>
    obtain ⟨k', v'⟩ := hd
    by_cases hk : k = k'
    · simp [List.lookup_cons, hk]
    · simp [List.lookup_cons, beq_false_of_ne hk, ih]

theorem ModuleGraph.wf_add_module (g : ModuleGraph) (p : String) (s : Nat)
    (pk : Option String) (hw : g.WF) : (g.add_module p s pk).1.WF := by
  unfold ModuleGraph.add_module
  cases hl : List.lookup p g.path_to_id with
  | some id => exact hw
  | none =>
    dsimp only
    obtain ⟨aln, mid, eid, esrc, etgt, av, asrc, ac, eu⟩ := hw
    refine ⟨?_, ?_, eid, ?_, ?_, ?_, ?_, ?_, eu⟩
    · simp [aln]
    · intro i hi
      simp only [List.length_append, List.length_cons, List.length_nil] at hi
      rcases Nat.lt_or_ge i g.modules.length with h | h
      · rw [List.getElem_append_left h]; exact mid i h
      · have : i = g.modules.length := by omega
        subst this
        rw [List.getElem_concat_length _ _ _ rfl]
    · intro ed hed
      have := esrc ed hed
      simp only [List.length_append, List.length_cons, List.length_nil]
      omega
    · intro ed hed
      have := etgt ed hed
      simp only [List.length_append, List.length_cons, List.length_nil]
      omega
    · intro f e he
      rcases Nat.lt_or_ge f g.forward_adj.length with h | h
      · rw [getD_append_lt _ _ _ _ h] at he; exact av f e he
      · rw [getD_append_ge _ _ _ _ h] at he
        have hnil : ∀ n : Nat, ([([] : List Nat)]).getD n [] = [] := by
          intro n; cases n <;> rfl
        rw [hnil] at he
        simp at he
    · intro f e he hee
      rcases Nat.lt_or_ge f g.forward_adj.length with h | h
      · rw [getD_append_lt _ _ _ _ h] at he; exact asrc f e he hee
      · rw [getD_append_ge _ _ _ _ h] at he
        have hnil : ∀ n : Nat, ([([] : List Nat)]).getD n [] = [] := by
          intro n; cases n <;> rfl
        rw [hnil] at he
        simp at he
    · intro e he
      have hfa : (g.edges[e]).fromId < g.forward_adj.length := by
        rw [aln]; exact esrc _ (List.getElem_mem he)
      rw [getD_append_lt _ _ _ _ hfa]
      exact ac e he

theorem ModuleGraph.indexwf_add_module (g : ModuleGraph) (p : String) (s : Nat)
    (pk : Option String) (hw : g.IndexWF) : (g.add_module p s pk).1.IndexWF := by
  unfold ModuleGraph.add_module
  cases hl : List.lookup p g.path_to_id with
  | some id => exact hw
  | none =>
    obtain ⟨hs, hc⟩ := hw
    constructor
    · intro q id hq
      rw [lookup_append] at hq
      cases hq' : List.lookup q g.path_to_id with
      | some v =>
        rw [hq'] at hq
        obtain ⟨hlt, hpath⟩ := hs q id (by rw [← hq]; exact hq'.symm ▸ hq')
        refine ⟨by simp; omega, ?_⟩
        rw [List.getElem_append_left hlt]
        exact hpath
      | none =>
        rw [hq'] at hq
        simp only [List.lookup_cons, List.lookup_nil] at hq
        by_cases hqp : q = p
        · subst hqp
          simp at hq
          subst hq
          refine ⟨by simp, ?_⟩
          rw [List.getElem_concat_length _ _ _ rfl]
        · simp [beq_false_of_ne hqp] at hq
    · intro i hi
      simp only [List.length_append, List.length_cons, List.length_nil] at hi
      rcases Nat.lt_or_ge i g.modules.length with h | h
      · rw [List.getElem_append_left h, lookup_append, hc i h]
      · have : i = g.modules.length := by omega
        subst this
        rw [List.getElem_concat_length _ _ _ rfl]
        simp only [lookup_append, hl]
        simp

/-- The dedup predicate of `add_edge`, named for reuse in proofs. -/
def edgeMatch (g : ModuleGraph) (t : Nat) (k : EdgeKind) (eid : Nat) : Bool :=
  match g.edges.get? eid with
  | some e => e.toId == t && e.kind == k
  | none => false

instance : LawfulBEq EdgeKind where
  eq_of_beq {a b} h := by cases a <;> cases b <;> first | rfl | exact absurd h (by decide)
  rfl {a} := by cases a <;> rfl

theorem edgeMatch_true_iff (g : ModuleGraph) (t : Nat) (k : EdgeKind) (eid : Nat)
    (he : eid < g.edges.length) :
    edgeMatch g t k eid = true ↔ (g.edges[eid]).toId = t ∧ (g.edges[eid]).kind = k := by
  unfold edgeMatch
  rw [List.get?_eq_getElem?, List.getElem?_eq_getElem he]
  simp [Bool.and_eq_true, beq_iff_eq]

theorem add_edge_eq (g : ModuleGraph) (f t : Nat) (k : EdgeKind) (sp : String) :
    g.add_edge f t k sp =
      match (g.forward_adj.getD f []).find? (edgeMatch g t k) with
      | some eid => (g, eid)
      | none =>
        ({ modules := g.modules,
           edges := g.edges ++ [{ id := g.edges.length, fromId := f, toId := t,
                                  kind := k, specifier := sp }],
           forward_adj := g.forward_adj.set f
             ((g.forward_adj.getD f []) ++ [g.edges.length]),
           path_to_id := g.path_to_id }, g.edges.length) := rfl

theorem ModuleGraph.wf_add_edge (g : ModuleGraph) (f t : Nat) (k : EdgeKind) (sp : String)
    (hw : g.WF) (hf : f < g.modules.length) (ht : t < g.modules.length) :
    (g.add_edge f t k sp).1.WF := by
  have hfa : f < g.forward_adj.length := by rw [hw.adj_len]; exact hf
  rw [add_edge_eq]
  cases hfind : (g.forward_adj.getD f []).find? (edgeMatch g t k) with
  | some eid => exact hw
  | none =>
    rw [List.find?_eq_none] at hfind
    obtain ⟨aln, mid, eid, esrc, etgt, av, asrc, ac, eu⟩ := hw
    have hnotdup : ∀ i (hi : i < g.edges.length),
        (g.edges[i]).fromId = f → ¬((g.edges[i]).toId = t ∧ (g.edges[i]).kind = k) := by
      intro i hi hsrc hcon
      have hA := ac i hi
      rw [hsrc] at hA
      exact hfind i hA ((edgeMatch_true_iff g t k i hi).mpr hcon)
    dsimp only
    refine ⟨?_, mid, ?_, ?_, ?_, ?_, ?_, ?_, ?_⟩
    · simp [aln]
    · intro e he
      simp only [List.length_append, List.length_cons, List.length_nil] at he
      rcases Nat.lt_or_ge e g.edges.length with h | h
      · rw [List.getElem_append_left h]; exact eid e h
      · have : e = g.edges.length := by omega
        subst this
        rw [List.getElem_concat_length _ _ _ rfl]
    · intro ed hed
      rcases List.mem_append.mp hed with hed | hed
      · exact esrc ed hed
      · rw [List.mem_singleton] at hed; subst hed; exact hf
    · intro ed hed
      rcases List.mem_append.mp hed with hed | hed
      · exact etgt ed hed
      · rw [List.mem_singleton] at hed; subst hed; exact ht
    · intro f' e he
      rw [getD_set] at he
      by_cases hff : f = f'
      · simp only [if_pos hff, if_pos hfa] at he
        rcases List.mem_append.mp he with he | he
        · have := av f e he
          simp only [List.length_append, List.length_cons, List.length_nil]; omega
        · rw [List.mem_singleton] at he; subst he
          simp only [List.length_append, List.length_cons, List.length_nil]; omega
      · simp only [if_neg hff] at he
        have := av f' e he
        simp only [List.length_append, List.length_cons, List.length_nil]; omega
    · intro f' e he hee
      rw [getD_set] at he
      by_cases hff : f = f'
      · simp only [if_pos hff, if_pos hfa] at he
        subst hff
        rcases List.mem_append.mp he with he | he
        · have hee' : e < g.edges.length := av f e he
          rw [List.getElem_append_left hee']
          exact asrc f e he hee'
        · rw [List.mem_singleton] at he; subst he
          rw [List.getElem_concat_length _ _ _ rfl]
      · simp only [if_neg hff] at he
        have hee' : e < g.edges.length := av f' e he
        rw [List.getElem_append_left hee']
        exact asrc f' e he hee'
    · intro e he
      simp only [List.length_append, List.length_cons, List.length_nil] at he
      rcases Nat.lt_or_ge e g.edges.length with h | h
      · rw [List.getElem_append_left h]
        rw [getD_set]
        by_cases hff : f = (g.edges[e]).fromId
        · simp only [if_pos hff, if_pos hfa]
          refine List.mem_append_left _ ?_
          rw [hff]
          exact ac e h
        · simp only [if_neg hff]
          exact ac e h
      · have : e = g.edges.length := by omega
        subst this
        rw [List.getElem_concat_length _ _ _ rfl]
        rw [getD_set]
        simp only [if_pos rfl, if_pos hfa]
        exact List.mem_append_right _ (by simp)
    · intro i j hi hj
      simp only [List.length_append, List.length_cons, List.length_nil] at hi hj
      rcases Nat.lt_or_ge i g.edges.length with h1 | h1 <;>
        rcases Nat.lt_or_ge j g.edges.length with h2 | h2
      · rw [List.getElem_append_left h1, List.getElem_append_left h2]
        exact eu i j h1 h2
      · have : j = g.edges.length := by omega
        subst this
        rw [List.getElem_append_left h1, List.getElem_concat_length _ _ _ rfl]
        intro hsrc htgt hkind
        exact absurd ⟨htgt, hkind⟩ (hnotdup i h1 hsrc)
      · have : i = g.edges.length := by omega
        subst this
        rw [List.getElem_append_left h2, List.getElem_concat_length _ _ _ rfl]
        intro hsrc htgt hkind
        exact absurd ⟨htgt.symm, hkind.symm⟩ (hnotdup j h2 hsrc.symm)
      · omega

theorem ModuleGraph.indexwf_add_edge (g : ModuleGraph) (f t : Nat) (k : EdgeKind)
    (sp : String) (hw : g.IndexWF) : (g.add_edge f t k sp).1.IndexWF := by
  rw [add_edge_eq]
  cases hfind : (g.forward_adj.getD f []).find? (edgeMatch g t k) with
  | some eid => exact hw
  | none => exact ⟨hw.sound, hw.complete⟩

theorem add_edge_modules (g : ModuleGraph) (f t : Nat) (k : EdgeKind) (sp : String) :
    (g.add_edge f t k sp).1.modules = g.modules := by
  rw [add_edge_eq]
  cases (g.forward_adj.getD f []).find? (edgeMatch g t k) <;> rfl

theorem add_edge_edges_mono (g : ModuleGraph) (f t : Nat) (k : EdgeKind) (sp : String) :
    ∃ tail, (g.add_edge f t k sp).1.edges = g.edges ++ tail := by
  rw [add_edge_eq]
  cases (g.forward_adj.getD f []).find? (edgeMatch g t k) with
  | some eid => exact ⟨[], by simp⟩
  | none => exact ⟨_, rfl⟩

/-- If an edge with the requested (from, to, kind) triple is already present in
a well-formed graph, `add_edge` finds it: the graph is returned unchanged along
with the existing edge's id. -/
theorem add_edge_found (g : ModuleGraph) (hw : g.WF) (f t : Nat) (k : EdgeKind)
    (sp : String) (e : Edge) (hmem : e ∈ g.edges) (h1 : e.fromId = f)
    (h2 : e.toId = t) (h3 : e.kind = k) : g.add_edge f t k sp = (g, e.id) := by
  obtain ⟨i, hi, hei⟩ := List.mem_iff_getElem.mp hmem
  have hid : e.id = i := by rw [← hei]; exact hw.edge_id i hi
  have hpi : edgeMatch g t k i = true := by
    rw [edgeMatch_true_iff g t k i hi, hei]
    exact ⟨h2, h3⟩
  have hadj : i ∈ g.forward_adj.getD f [] := by
    have := hw.adj_complete i hi
    rwa [hei, h1] at this
  rw [add_edge_eq]
  cases hfind : (g.forward_adj.getD f []).find? (edgeMatch g t k) with
  | none =>
    rw [List.find?_eq_none] at hfind
    exact absurd hpi (hfind i hadj)
  | some eid =>
    have hmem' := List.mem_of_find?_eq_some hfind
    have hp := List.find?_some hfind
    have heid : eid < g.edges.length := hw.adj_valid f eid hmem'
    have hfrom : (g.edges[eid]).fromId = f := hw.adj_src f eid hmem' heid
    obtain ⟨hto, hkind⟩ := (edgeMatch_true_iff g t k eid heid).mp hp
    have : eid = i := by
      refine hw.edge_unique eid i heid hi ?_ ?_ ?_
      · rw [hfrom, hei, h1]
      · rw [hto, hei, h2]
      · rw [hkind, hei, h3]
    rw [this, hid]

/-- `add_edge` always leaves an edge with the requested triple at the returned
id (either the existing one or the freshly appended one). -/
theorem add_edge_spec (g : ModuleGraph) (hw : g.WF) (f t : Nat) (k : EdgeKind)
    (sp : String) :
    ∃ h : (g.add_edge f t k sp).2 < (g.add_edge f t k sp).1.edges.length,
      ((g.add_edge f t k sp).1.edges[(g.add_edge f t k sp).2]).fromId = f ∧
      ((g.add_edge f t k sp).1.edges[(g.add_edge f t k sp).2]).toId = t ∧
      ((g.add_edge f t k sp).1.edges[(g.add_edge f t k sp).2]).kind = k := by
  rw [add_edge_eq]
  cases hfind : (g.forward_adj.getD f []).find? (edgeMatch g t k) with
  | some eid =>
    have hmem' := List.mem_of_find?_eq_some hfind
    have hp := List.find?_some hfind
    have heid : eid < g.edges.length := hw.adj_valid f eid hmem'
    have hfrom : (g.edges[eid]).fromId = f := hw.adj_src f eid hmem' heid
    obtain ⟨hto, hkind⟩ := (edgeMatch_true_iff g t k eid heid).mp hp
    exact ⟨heid, hfrom, hto, hkind⟩
  | none =>
    refine ⟨by simp, ?_⟩
    dsimp only
    rw [List.getElem_concat_length _ _ _ rfl]
    exact ⟨rfl, rfl, rfl⟩

/-- Every reachable graph satisfies both invariants. -/
theorem ModuleGraph.reachable_wf (g : ModuleGraph) (hr : g.Reachable) :
    g.WF ∧ g.IndexWF := by
  induction hr with
  | new => exact ⟨ModuleGraph.wf_new, ModuleGraph.indexwf_new⟩
  | addModule g p s pk _ ih =>
    exact ⟨ModuleGraph.wf_add_module g p s pk ih.1,
           ModuleGraph.indexwf_add_module g p s pk ih.2⟩
  | addEdge g f t k sp _ hf ht ih =>
    exact ⟨ModuleGraph.wf_add_edge g f t k sp ih.1 hf ht,
           ModuleGraph.indexwf_add_edge g f t k sp ih.2⟩

/-! ## Claims C4 and C9: graph-store invariants and edge dedup -/

/-- Claim C9: in every graph reachable by any sequence of
`add_module`/`add_edge` calls (the latter applied to module ids the graph
previously returned), the store invariant holds: `forward_adj` is parallel
to `modules`; `modules[i].id = i` and `edges[e].id = e`; every edge's
endpoints are existing module ids; and every edge id held in an adjacency
list is an existing edge id whose edge leaves that module — so `module`,
`edge`, and `outgoing_edges` never index out of bounds for previously
returned ids. -/
theorem C9_graph_store_invariant (g : ModuleGraph) (hr : g.Reachable) : g.WF :=
  (ModuleGraph.reachable_wf g hr).1

theorem C9_witness :
    ((((ModuleGraph.new.add_module "a.ts" 100 none).1.add_module "b.ts" 200
        none).1.add_edge 0 1 EdgeKind.Static "./b").1).WF :=
  C9_graph_store_invariant _
    (ModuleGraph.Reachable.addEdge _ 0 1 _ _
      (ModuleGraph.Reachable.addModule _ _ _ _
        (ModuleGraph.Reachable.addModule _ _ _ _ ModuleGraph.Reachable.new))
      (by decide) (by decide))

/-- Claim C4: in every reachable graph, each (from, to, kind) triple has at
most one edge; re-adding an already-present triple returns the existing
edge id and leaves the graph (edge vector, adjacency lists, and the stored
specifier, which is the first one inserted) entirely unchanged; and adding
the same (from, to) pair with a different kind yields a distinct edge, with
both kinds present afterwards. -/
theorem C4_edge_dedup (g : ModuleGraph) (hr : g.Reachable) :
    (∀ i j (hi : i < g.edges.length) (hj : j < g.edges.length),
       (g.edges[i]).fromId = (g.edges[j]).fromId →
       (g.edges[i]).toId = (g.edges[j]).toId →
       (g.edges[i]).kind = (g.edges[j]).kind → i = j) ∧
    (∀ f t k sp, ∀ e ∈ g.edges, e.fromId = f → e.toId = t → e.kind = k →
       g.add_edge f t k sp = (g, e.id)) ∧
    (∀ f t k k' sp sp', f < g.modules.length → t < g.modules.length → k ≠ k' →
       (g.add_edge f t k sp).2 ≠
         (((g.add_edge f t k sp).1).add_edge f t k' sp').2 ∧
       (∃ e ∈ (((g.add_edge f t k sp).1).add_edge f t k' sp').1.edges,
          e.fromId = f ∧ e.toId = t ∧ e.kind = k) ∧
       (∃ e ∈ (((g.add_edge f t k sp).1).add_edge f t k' sp').1.edges,
          e.fromId = f ∧ e.toId = t ∧ e.kind = k')) := by
  have hw : g.WF := (ModuleGraph.reachable_wf g hr).1
  refine ⟨hw.edge_unique, ?_, ?_⟩
  · intro f t k sp e hmem h1 h2 h3
    exact add_edge_found g hw f t k sp e hmem h1 h2 h3
  · intro f t k k' sp sp' hf ht hkk
    have hw1 : (g.add_edge f t k sp).1.WF :=
      ModuleGraph.wf_add_edge g f t k sp hw hf ht
    have hm1 : (g.add_edge f t k sp).1.modules = g.modules :=
      add_edge_modules g f t k sp
    obtain ⟨he1, hfrom1, hto1, hkind1⟩ := add_edge_spec g hw f t k sp
    obtain ⟨he2, hfrom2, hto2, hkind2⟩ :=
      add_edge_spec (g.add_edge f t k sp).1 hw1 f t k' sp'
    obtain ⟨tail, htail⟩ :=
      add_edge_edges_mono (g.add_edge f t k sp).1 f t k' sp'
    have he1' : (g.add_edge f t k sp).2 <
        (((g.add_edge f t k sp).1).add_edge f t k' sp').1.edges.length := by
      rw [htail]; simp; omega
    have hpersist :
        (((g.add_edge f t k sp).1).add_edge f t k' sp').1.edges[(g.add_edge f t k sp).2] =
          (g.add_edge f t k sp).1.edges[(g.add_edge f t k sp).2] := by
      have hA := List.getElem?_eq_getElem he1'
      have hB : (((g.add_edge f t k sp).1).add_edge f t k' sp').1.edges[(g.add_edge f t k sp).2]? =
          some ((g.add_edge f t k sp).1.edges[(g.add_edge f t k sp).2]) := by
        rw [htail, List.getElem?_append_left he1]
        exact List.getElem?_eq_getElem he1
      exact Option.some.inj (hA.symm.trans hB)
    refine ⟨?_, ?_, ?_⟩
    · intro hcontra
      have ha : ((((g.add_edge f t k sp).1).add_edge f t k' sp').1.edges[(g.add_edge f t k sp).2]?).map Edge.kind = some k := by
        rw [List.getElem?_eq_getElem he1']
        simp [hpersist, hkind1]
      have hb : ((((g.add_edge f t k sp).1).add_edge f t k' sp').1.edges[(((g.add_edge f t k sp).1).add_edge f t k' sp').2]?).map Edge.kind = some k' := by
        rw [List.getElem?_eq_getElem he2]
        simp [hkind2]
      rw [hcontra] at ha
      rw [ha] at hb
      exact hkk (Option.some.inj hb)
    · refine ⟨(((g.add_edge f t k sp).1).add_edge f t k' sp').1.edges[(g.add_edge f t k sp).2], List.getElem_mem he1', ?_, ?_, ?_⟩
      · rw [hpersist]; exact hfrom1
      · rw [hpersist]; exact hto1
      · rw [hpersist]; exact hkind1
    · exact ⟨_, List.getElem_mem he2, hfrom2, hto2, hkind2⟩

theorem C4_witness :
    (((((ModuleGraph.new.add_module "a.ts" 100 none).1.add_module "b.ts" 200
        none).1.add_edge 0 1 EdgeKind.Static "./b").1).add_edge 0 1
        EdgeKind.Static "./b-link") =
      ((((ModuleGraph.new.add_module "a.ts" 100 none).1.add_module "b.ts" 200
        none).1.add_edge 0 1 EdgeKind.Static "./b").1, 0) := by
  have hr : (((ModuleGraph.new.add_module "a.ts" 100 none).1.add_module "b.ts"
      200 none).1.add_edge 0 1 EdgeKind.Static "./b").1.Reachable :=
    ModuleGraph.Reachable.addEdge _ 0 1 _ _
      (ModuleGraph.Reachable.addModule _ _ _ _
        (ModuleGraph.Reachable.addModule _ _ _ _ ModuleGraph.Reachable.new))
      (by decide) (by decide)
  have h := (C4_edge_dedup _ hr).2.1 0 1 EdgeKind.Static "./b-link"
    { id := 0, fromId := 0, toId := 1, kind := EdgeKind.Static, specifier := "./b" }
    (by decide) rfl rfl rfl
  exact h

/-! ## Parse cache (src/cache.rs) -/

/-- The result of one `fs::metadata` call: `modified()` can itself fail, so
the mtime inside a successful metadata read is optional (`mtime_of` in
cache.rs returns `Option<u128>`); `size` is `meta.len()`. -/
structure FsMeta where
  mtime : Option Nat
  size : Nat
deriving DecidableEq, Repr

/-- A filesystem state: path to metadata (`none` = `fs::metadata` fails). -/
def Fs : Type := String → Option FsMeta

/-- `RawImport` from src/lang/mod.rs (defined identically in parser.rs and
consumed by walker.rs and both extractors). -/
structure RawImport where
  specifier : String
  kind : EdgeKind
deriving DecidableEq, Repr

/-- Modelled from the spec: `crate::lang::ParseResult`, imported by cache.rs
and consumed field-by-field by walker.rs, is not among the sources; per
spec §3 (CachedParse) and §4.2 it is the list of raw imports with their
kinds plus the count of dynamic imports whose argument was not a literal
string. -/
structure ParseResult where
  imports : List RawImport
  unresolvable_dynamic : Nat
deriving DecidableEq, Repr

/-- `CachedParse` from cache.rs. -/
structure CachedParse where
  mtime_nanos : Nat
  size : Nat
  result : ParseResult
deriving DecidableEq, Repr

/-- `CachedMtime` from cache.rs. -/
structure CachedMtime where
  mtime_nanos : Nat
  size : Nat
deriving DecidableEq, Repr

/-- `CachedGraph` from cache.rs.  `file_mtimes : HashMap<PathBuf, CachedMtime>`
is an association list with distinct keys (it is built keyed by module
paths, which are distinct). -/
structure CachedGraph where
  entry : String
  graph : ModuleGraph
  file_mtimes : List (String × CachedMtime)
  unresolved_specifiers : List String
  unresolvable_dynamic : Nat
deriving DecidableEq, Repr

/-- `CacheEnvelope` from cache.rs. -/
structure CacheEnvelope where
  version : Nat
  parse_entries : List (String × CachedParse)
  graph_cache : Option CachedGraph
deriving DecidableEq, Repr

/-- `CACHE_VERSION` from cache.rs. -/
def CACHE_VERSION : Nat := 4

/-- In-memory `ParseCache` from cache.rs. -/
structure ParseCache where
  entries : List (String × CachedParse)
  cached_graph : Option CachedGraph
deriving DecidableEq, Repr

/-- `ParseCache::new`. -/
def ParseCache.new : ParseCache := ⟨[], none⟩

/-- `ParseCache::load`.  `fs::read` of the cache file is modelled by
`readResult` (`none` = the read failed / the file is missing) and
`bitcode::deserialize` by `decode` (`none` = deserialization failed).
Only an envelope that decodes and carries the current version is used;
every other outcome yields `ParseCache::new`. -/
def ParseCache.load (readResult : Option (List Nat))
    (decode : List Nat → Option CacheEnvelope) : ParseCache :=
  match readResult with
  | none => ParseCache.new
  | some data =>
    match decode data with
    | some e =>
      if e.version = CACHE_VERSION then ⟨e.parse_entries, e.graph_cache⟩
      else ParseCache.new
    | none => ParseCache.new

/-- `ParseCache::try_load_graph`.  The parallel mtime scan writes its verdict
into an `AtomicBool` with an early-bail optimization; a worker skips its
check only after another worker has already stored `false`, so the final
value of `valid` is exactly "every recorded file still has the recorded
mtime and size", modelled by `List.all`.  The specifier loop returns miss
on the first previously-unresolved specifier that now resolves. -/
def ParseCache.try_load_graph (c : ParseCache) (fs : Fs) (entry : String)
    (resolve_fn : String → Bool) : Option (ModuleGraph × Nat) :=
  match c.cached_graph with
  | none => none
  | some cached =>
    if cached.entry ≠ entry then none
    else
      let valid := cached.file_mtimes.all (fun pm =>
        match fs pm.1 with
        | some meta =>
          match meta.mtime with
          | some m => m == pm.2.mtime_nanos && meta.size == pm.2.size
          | none => false
        | none => false)
      if !valid then none
      else if cached.unresolved_specifiers.any (fun spec => resolve_fn spec) then none
      else some (cached.graph, cached.unresolvable_dynamic)

/-- `ParseCache::lookup` (the two-argument cache.rs version): hit iff the
entry exists and the file's current mtime and size equal the recorded
tuple. -/
def ParseCache.lookup (c : ParseCache) (fs : Fs) (path : String) :
    Option ParseResult :=
  match List.lookup path c.entries with
  | none => none
  | some entry =>
    match fs path with
    | none => none
    | some meta =>
      match meta.mtime with
      | none => none
      | some current_mtime =>
        if current_mtime == entry.mtime_nanos && meta.size == entry.size then
          some entry.result
        else none

/-- `HashMap::insert` on the association-list embedding: replace the binding
if the key is present, else append. -/
def assocInsert {α : Type} (k : String) (v : α) :
    List (String × α) → List (String × α)
  | [] => [(k, v)]
  | (k', v') :: rest =>
    if k' = k then (k, v) :: rest else (k', v') :: assocInsert k v rest

/-- `ParseCache::insert`: re-reads mtime/size at insertion time; silently
stores nothing when the metadata read (or its mtime) fails. -/
def ParseCache.insert (c : ParseCache) (fs : Fs) (path : String)
    (result : ParseResult) : ParseCache :=
  match fs path with
  | none => c
  | some meta =>
    match meta.mtime with
    | none => c
    | some mtime =>
      ⟨assocInsert path ⟨mtime, meta.size, result⟩ c.entries, c.cached_graph⟩

theorem lookup_assocInsert_self {α : Type} (k : String) (v : α)
    (l : List (String × α)) : List.lookup k (assocInsert k v l) = some v := by
  induction l with
  | nil => simp [assocInsert, List.lookup_cons]
  | cons hd tl ih =>
    obtain ⟨k', v'⟩ := hd
    by_cases hk : k' = k
    · simp [assocInsert, hk, List.lookup_cons]
    · simp only [assocInsert, if_neg hk, List.lookup_cons]
      have : (k == k') = false := beq_false_of_ne (fun h => hk h.symm)
      simp [this, ih]

/-! ## Claims C3, C6, C8: cache behaviour -/

theorem mtimeCheck_true_iff (fs : Fs) (pm : String × CachedMtime) :
    (match fs pm.1 with
     | some meta =>
       match meta.mtime with
       | some m => m == pm.2.mtime_nanos && meta.size == pm.2.size
       | none => false
     | none => false) = true ↔
      fs pm.1 = some ⟨some pm.2.mtime_nanos, pm.2.size⟩ := by
  cases hm : fs pm.1 with
  | none => simp
  | some meta =>
    obtain ⟨mt, sz⟩ := meta
    cases mt with
    | none => simp
    | some m =>
      simp [FsMeta.mk.injEq]

/-- Claim C3: `try_load_graph(entry, resolves)` returns some (the cached
graph with the cached unresolvable-dynamic count) iff a cached graph
exists, its recorded entry equals `entry`, every path in the recorded
mtime map currently reports exactly the recorded mtime and size, and the
`resolves` predicate is false on every previously-unresolved specifier;
in every other case it returns a miss. -/
theorem C3_try_load_graph_iff (c : ParseCache) (fs : Fs) (entry : String)
    (resolve_fn : String → Bool) (g : ModuleGraph) (n : Nat) :
    c.try_load_graph fs entry resolve_fn = some (g, n) ↔
      ∃ cached, c.cached_graph = some cached ∧ cached.entry = entry ∧
        (∀ pm ∈ cached.file_mtimes,
           fs pm.1 = some ⟨some pm.2.mtime_nanos, pm.2.size⟩) ∧
        (∀ spec ∈ cached.unresolved_specifiers, resolve_fn spec = false) ∧
        g = cached.graph ∧ n = cached.unresolvable_dynamic := by
  unfold ParseCache.try_load_graph
  cases hc : c.cached_graph with
  | none => simp
  | some cached =>
    simp only [Option.some.injEq]
    constructor
    · intro h
      by_cases he : cached.entry = entry
      · rw [if_neg (by simp [he])] at h
        cases hall : cached.file_mtimes.all (fun pm =>
            match fs pm.1 with
            | some meta =>
              match meta.mtime with
              | some m => m == pm.2.mtime_nanos && meta.size == pm.2.size
              | none => false
            | none => false) with
        | false => rw [hall] at h; simp at h
        | true =>
          rw [hall] at h
          simp only [Bool.not_true, Bool.false_eq_true, if_false] at h
          cases hany : cached.unresolved_specifiers.any (fun spec => resolve_fn spec) with
          | true => rw [hany] at h; simp at h
          | false =>
            rw [hany] at h
            simp only [Bool.false_eq_true, if_false, Option.some.injEq, Prod.mk.injEq] at h
            refine ⟨cached, rfl, he, ?_, ?_, h.1.symm, h.2.symm⟩
            · intro pm hpm
              have := (List.all_eq_true.mp hall) pm hpm
              exact (mtimeCheck_true_iff fs pm).mp this
            · intro spec hspec
              have := List.any_eq_false.mp hany spec hspec
              simpa using this
      · rw [if_pos (by simp [he])] at h
        exact absurd h (by simp)
    · rintro ⟨cached', hc', he, hfiles, hspecs, hg, hn⟩
      subst hc'
      rw [if_neg (by simp [he])]
      have hall : cached.file_mtimes.all (fun pm =>
          match fs pm.1 with
          | some meta =>
            match meta.mtime with
            | some m => m == pm.2.mtime_nanos && meta.size == pm.2.size
            | none => false
          | none => false) = true := by
        rw [List.all_eq_true]
        intro pm hpm
        exact (mtimeCheck_true_iff fs pm).mpr (hfiles pm hpm)
      rw [hall]
      have hany : cached.unresolved_specifiers.any (fun spec => resolve_fn spec) = false := by
        rw [List.any_eq_false]
        intro spec hspec
        simp [hspecs spec hspec]
      rw [hany]
      simp [hg, hn]

theorem C3_try_load_graph_iff_witness :
    (ParseCache.mk []
        (some ⟨"e.ts", ModuleGraph.new, [("e.ts", ⟨7, 42⟩)], ["left-pad"], 3⟩)).try_load_graph
      (fun p => if p = "e.ts" then some ⟨some 7, 42⟩ else none) "e.ts"
      (fun _ => false) = some (ModuleGraph.new, 3) := by
  rw [C3_try_load_graph_iff]
  refine ⟨_, rfl, rfl, ?_, ?_, rfl, rfl⟩
  · intro pm hpm
    simp at hpm
    subst hpm
    rfl
  · intro spec hspec
    rfl

/-- Claim C6: `insert(F, R)` records F's mtime and size read at insertion
time and silently stores nothing when the metadata read fails; afterwards
`lookup(F)` returns `R` iff F's current mtime and size both still equal
the recorded tuple (any change to either makes it miss), and a missing
cache entry always misses. -/
theorem C6_cache_hit_correctness (c : ParseCache) (fs fs2 : Fs) (path : String)
    (result : ParseResult) :
    ((fs path = none → c.insert fs path result = c) ∧
     (∀ meta, fs path = some meta → meta.mtime = none →
        c.insert fs path result = c)) ∧
    (∀ meta mt, fs path = some meta → meta.mtime = some mt →
       (((c.insert fs path result).lookup fs2 path = some result) ↔
          fs2 path = some ⟨some mt, meta.size⟩) ∧
       (fs2 path ≠ some ⟨some mt, meta.size⟩ →
          (c.insert fs path result).lookup fs2 path = none)) ∧
    (List.lookup path c.entries = none → c.lookup fs2 path = none) := by
  refine ⟨⟨?_, ?_⟩, ?_, ?_⟩
  · intro h; simp [ParseCache.insert, h]
  · intro meta h hmt; simp [ParseCache.insert, h, hmt]
  · intro meta mt h hmt
    have hins : (c.insert fs path result).entries =
        assocInsert path ⟨mt, meta.size, result⟩ c.entries := by
      simp [ParseCache.insert, h, hmt]
    have hlk : List.lookup path (c.insert fs path result).entries =
        some ⟨mt, meta.size, result⟩ := by
      rw [hins]; exact lookup_assocInsert_self _ _ _
    constructor
    · unfold ParseCache.lookup
      rw [hlk]
      cases h2 : fs2 path with
      | none => simp
      | some meta2 =>
        obtain ⟨mt2, sz2⟩ := meta2
        cases mt2 with
        | none => simp [FsMeta.mk.injEq]
        | some m2 =>
          simp only
          by_cases hm : m2 = mt ∧ sz2 = meta.size
          · obtain ⟨hm1, hm2⟩ := hm
            subst hm1; subst hm2
            simp
          · have : (m2 == mt && sz2 == meta.size) = false := by
              rcases not_and_or.mp hm with hne | hne <;>
                simp [beq_false_of_ne hne, Bool.and_eq_false_iff]
            rw [this]
            simp only [Bool.false_eq_true, if_false, Option.some.injEq, FsMeta.mk.injEq]
            constructor
            · intro hcon; exact absurd hcon (by simp)
            · rintro ⟨h1, h2⟩
              exact absurd ⟨h1, h2⟩ hm
    · intro hne
      unfold ParseCache.lookup
      rw [hlk]
      cases h2 : fs2 path with
      | none => simp
      | some meta2 =>
        obtain ⟨mt2, sz2⟩ := meta2
        cases mt2 with
        | none => simp
        | some m2 =>
          simp only
          have hm : ¬(m2 = mt ∧ sz2 = meta.size) := by
            intro ⟨h1', h2'⟩
            subst h1'; subst h2'
            exact hne h2
          have : (m2 == mt && sz2 == meta.size) = false := by
            rcases not_and_or.mp hm with hne' | hne' <;>
              simp [beq_false_of_ne hne', Bool.and_eq_false_iff]
          rw [this]
          simp
  · intro h; simp [ParseCache.lookup, h]

theorem C6_cache_hit_correctness_witness :
    (ParseCache.new.insert (fun _ => some ⟨some 5, 9⟩) "f.ts"
        ⟨[], 0⟩).lookup (fun _ => some ⟨some 5, 9⟩) "f.ts" = some ⟨[], 0⟩ :=
  ((C6_cache_hit_correctness ParseCache.new (fun _ => some ⟨some 5, 9⟩)
      (fun _ => some ⟨some 5, 9⟩) "f.ts" ⟨[], 0⟩).2.1 ⟨some 5, 9⟩ 5 rfl rfl).1.mpr rfl

/-- Claim C8: `load(root)` never fails — when the cache file is missing or
unreadable, when the stored version differs from `CACHE_VERSION`, or when
deserialization fails, it returns the empty cache (no per-file entries, no
cached graph). -/
theorem C8_load_never_fails (decode : List Nat → Option CacheEnvelope) :
    (ParseCache.load none decode = ParseCache.new) ∧
    (∀ data, decode data = none →
       ParseCache.load (some data) decode = ParseCache.new) ∧
    (∀ data e, decode data = some e → e.version ≠ CACHE_VERSION →
       ParseCache.load (some data) decode = ParseCache.new) ∧
    ParseCache.new.entries = [] ∧ ParseCache.new.cached_graph = none := by
  refine ⟨rfl, ?_, ?_, rfl, rfl⟩
  · intro data hd; simp [ParseCache.load, hd]
  · intro data e hd hv; simp [ParseCache.load, hd, hv]

theorem C8_load_never_fails_witness :
    ParseCache.load (some [9, 9]) (fun _ => none) = ParseCache.new :=
  (C8_load_never_fails (fun _ => none)).2.1 [9, 9] rfl

/-! ## Import extractor (src/parser.rs and src/lang/typescript/parser.rs)

The swc AST is embedded with exactly the shape the extractor inspects:
every constructor field the walker reads is present; node kinds the walker
ignores (its `_ => {}` arms) are collapsed into `other…` constructors. -/

/-- `Lit`: the walker only distinguishes string literals. -/
inductive JsLit where
  | str (value : String)
  | otherLit
deriving DecidableEq, Repr

mutual

/-- `Expr` (the constructors `walk_expr` matches on). -/
inductive JsExpr where
  | call (callee : JsCallee) (args : List JsExpr)
  | ident (sym : String)
  | lit (l : JsLit)
  | arrow (body : JsBlockStmtOrExpr)
  | fnExpr (body : Option (List JsStmt))
  | assign (right : JsExpr)
  | seq (exprs : List JsExpr)
  | paren (expr : JsExpr)
  | awaitExpr (arg : JsExpr)
  | cond (test cons alt : JsExpr)
  | bin (left right : JsExpr)
  | unary (arg : JsExpr)
  | member (obj : JsExpr)
  | array (elems : List (Option JsExpr))
  | object (props : List JsPropOrSpread)
  | tpl (exprs : List JsExpr)
  | otherExpr

/-- `Callee` of a call expression. -/
inductive JsCallee where
  | importCallee
  | exprCallee (e : JsExpr)
  | superCallee

/-- `BlockStmtOrExpr` (arrow bodies). -/
inductive JsBlockStmtOrExpr where
  | blockStmt (stmts : List JsStmt)
  | expr (e : JsExpr)

/-- `PropOrSpread` inside object literals; of `Prop` variants only
`KeyValue` is walked. -/
inductive JsPropOrSpread where
  | keyValue (value : JsExpr)
  | otherProp
  | spread (expr : JsExpr)

/-- `Stmt` (the constructors `walk_stmt` matches on). -/
inductive JsStmt where
  | exprStmt (e : JsExpr)
  | declStmt (d : JsDecl)
  | block (stmts : List JsStmt)
  | ifStmt (cons : JsStmt) (alt : Option JsStmt)
  | switchStmt (discriminant : JsExpr) (cases : List (List JsStmt))
  | tryStmt (blk : List JsStmt) (handler : Option (List JsStmt))
      (finalizer : Option (List JsStmt))
  | whileStmt (body : JsStmt)
  | doWhile (body : JsStmt)
  | forStmt (body : JsStmt)
  | forIn (body : JsStmt)
  | forOf (body : JsStmt)
  | returnStmt (arg : Option JsExpr)
  | labeled (body : JsStmt)
  | otherStmt

/-- `Decl` (the constructors `walk_decl` matches on): `Var` holds each
declarator's optional initializer, `Fn` an optional body. -/
inductive JsDecl where
  | varDecl (inits : List (Option JsExpr))
  | fnDecl (body : Option (List JsStmt))
  | otherDecl

end

mutual

/-- `walk_expr`: Rust appends into `&mut Vec<RawImport>`; the embedding
returns the appended segment and composes with `++` in traversal order.
The two recognition branches mirror the source exactly: a `Callee::Import`
call pushes a Dynamic import only for a string-literal first argument and
then returns (arguments are not traversed); a call whose callee is the
bare identifier `require` pushes a Static import only for a
string-literal first argument and then returns; any other call traverses
the callee expression and then every argument. -/
def walk_expr : JsExpr → List RawImport
  | .call callee args =>
    match callee with
    | .importCallee =>
      match args with
      | .lit (.str s) :: _ => [⟨s, EdgeKind.Dynamic⟩]
      | _ => []
    | .exprCallee calleeExpr =>
      match calleeExpr with
      | .ident sym =>
        if sym = "require" then
          match args with
          | .lit (.str s) :: _ => [⟨s, EdgeKind.Static⟩]
          | _ => []
        else walk_expr calleeExpr ++ walk_exprs args
      | _ => walk_expr calleeExpr ++ walk_exprs args
    | .superCallee => walk_exprs args
  | .arrow body =>
    match body with
    | .blockStmt stmts => walk_stmts stmts
    | .expr e => walk_expr e
  | .fnExpr body =>
    match body with
    | some stmts => walk_stmts stmts
    | none => []
  | .assign right => walk_expr right
  | .seq exprs => walk_exprs exprs
  | .paren e => walk_expr e
  | .awaitExpr a => walk_expr a
  | .cond t c a => walk_expr t ++ walk_expr c ++ walk_expr a
  | .bin l r => walk_expr l ++ walk_expr r
  | .unary a => walk_expr a
  | .member obj => walk_expr obj
  | .array elems => walk_optExprs elems
  | .object props => walk_props props
  | .tpl exprs => walk_exprs exprs
  | _ => []

def walk_exprs : List JsExpr → List RawImport
  | [] => []
  | e :: es => walk_expr e ++ walk_exprs es

/-- `array.elems.iter().flatten()`: holes are skipped, order kept. -/
def walk_optExprs : List (Option JsExpr) → List RawImport
  | [] => []
  | none :: es => walk_optExprs es
  | some e :: es => walk_expr e ++ walk_optExprs es

def walk_props : List JsPropOrSpread → List RawImport
  | [] => []
  | .keyValue v :: rest => walk_expr v ++ walk_props rest
  | .otherProp :: rest => walk_props rest
  | .spread e :: rest => walk_expr e ++ walk_props rest

/-- `walk_stmt` (note: the `while`/`do-while`/`for` arms traverse only the
body, and the `if` arm only the branches, exactly as in the source). -/
def walk_stmt : JsStmt → List RawImport
  | .exprStmt e => walk_expr e
  | .declStmt d => walk_decl d
  | .block stmts => walk_stmts stmts
  | .ifStmt cons alt =>
    walk_stmt cons ++
      (match alt with
       | some a => walk_stmt a
       | none => [])
  | .switchStmt disc cases => walk_expr disc ++ walk_stmtss cases
  | .tryStmt blk handler finalizer =>
    walk_stmts blk ++
      (match handler with
       | some h => walk_stmts h
       | none => []) ++
      (match finalizer with
       | some fin => walk_stmts fin
       | none => [])
  | .whileStmt b => walk_stmt b
  | .doWhile b => walk_stmt b
  | .forStmt b => walk_stmt b
  | .forIn b => walk_stmt b
  | .forOf b => walk_stmt b
  | .returnStmt arg =>
    match arg with
    | some e => walk_expr e
    | none => []
  | .labeled b => walk_stmt b
  | .otherStmt => []

def walk_stmts : List JsStmt → List RawImport
  | [] => []
  | st :: rest => walk_stmt st ++ walk_stmts rest

def walk_stmtss : List (List JsStmt) → List RawImport
  | [] => []
  | c :: cs => walk_stmts c ++ walk_stmtss cs

def walk_decl : JsDecl → List RawImport
  | .varDecl inits => walk_optExprs inits
  | .fnDecl body =>
    match body with
    | some stmts => walk_stmts stmts
    | none => []
  | .otherDecl => []

end

/-- `ImportSpecifier`: `Named` carries `is_type_only`; default and
namespace specifiers are the `_ => false` arms of the source match. -/
inductive ImportSpecifier where
  | named (is_type_only : Bool)
  | defaultSpec
  | namespaceSpec
deriving DecidableEq, Repr

/-- `ExportSpecifier`: only `Named`'s `is_type_only` is inspected. -/
inductive ExportSpecifier where
  | named (is_type_only : Bool)
  | defaultSpec
  | namespaceSpec
deriving DecidableEq, Repr

/-- `ModuleDecl` (the arms `extract_from_decl` matches on). -/
inductive JsModuleDecl where
  | importDecl (type_only : Bool) (specifiers : List ImportSpecifier) (src : String)
  | exportAll (type_only : Bool) (src : String)
  | exportNamed (type_only : Bool) (specifiers : List ExportSpecifier)
      (src : Option String)
  | otherModuleDecl
deriving DecidableEq, Repr

/-- `ModuleItem`. -/
inductive JsModuleItem where
  | moduleDecl (d : JsModuleDecl)
  | stmt (s : JsStmt)

/-- `extract_from_decl` from parser.rs / lang/typescript/parser.rs. -/
def extract_from_decl : JsModuleDecl → List RawImport
  | .importDecl type_only specifiers src =>
    let kind :=
      if type_only then EdgeKind.TypeOnly
      else
        let all_type := !specifiers.isEmpty && specifiers.all (fun s =>
          match s with
          | .named t => t
          | _ => false)
        if all_type then EdgeKind.TypeOnly else EdgeKind.Static
    [⟨src, kind⟩]
  | .exportAll type_only src =>
    [⟨src, if type_only then EdgeKind.TypeOnly else EdgeKind.Static⟩]
  | .exportNamed type_only specifiers osrc =>
    match osrc with
    | some src =>
      let kind :=
        if type_only then EdgeKind.TypeOnly
        else
          let all_type := !specifiers.isEmpty && specifiers.all (fun s =>
            match s with
            | .named t => t
            | _ => false)
          if all_type then EdgeKind.TypeOnly else EdgeKind.Static
      [⟨src, kind⟩]
    | none => []
  | .otherModuleDecl => []

/-- `extract_imports`: module items in order; declarations through
`extract_from_decl`, statements through the statement walker. -/
def extract_imports : List JsModuleItem → List RawImport
  | [] => []
  | .moduleDecl d :: rest => extract_from_decl d ++ extract_imports rest
  | .stmt st :: rest => walk_stmt st ++ extract_imports rest

/-! ## Claims C5, C2, C10: extractor behaviour -/

theorem importSpec_flag_iff (s : ImportSpecifier) :
    (match s with
     | ImportSpecifier.named t => t
     | _ => false) = true ↔ ∃ b, s = ImportSpecifier.named b ∧ b = true := by
  cases s <;> simp

/-- Claim C5: for `import ... from "X"` declarations the extractor assigns
`TypeOnly` iff the declaration itself is type-only, or the specifier list
is non-empty and every specifier is a type-only named specifier; in every
other case it assigns `Static`.  In particular `import type { T }` and
`import { type A, type B }` give `TypeOnly` while `import { type A, b }`
and a bare `import "X"` give `Static`. -/
theorem C5_import_kind :
    (∀ (t : Bool) (specs : List ImportSpecifier) (src : String),
       ∃ k, extract_from_decl (.importDecl t specs src) = [⟨src, k⟩] ∧
         (k = EdgeKind.TypeOnly ↔
           (t = true ∨ (specs ≠ [] ∧
             ∀ s ∈ specs, ∃ b, s = ImportSpecifier.named b ∧ b = true))) ∧
         (k = EdgeKind.TypeOnly ∨ k = EdgeKind.Static)) ∧
    extract_from_decl (.importDecl true [.named false] "X") =
      [⟨"X", EdgeKind.TypeOnly⟩] ∧
    extract_from_decl (.importDecl false [.named true, .named true] "X") =
      [⟨"X", EdgeKind.TypeOnly⟩] ∧
    extract_from_decl (.importDecl false [.named true, .named false] "X") =
      [⟨"X", EdgeKind.Static⟩] ∧
    extract_from_decl (.importDecl false [] "X") = [⟨"X", EdgeKind.Static⟩] := by
  refine ⟨?_, by simp [extract_from_decl], by simp [extract_from_decl],
    by simp [extract_from_decl], by simp [extract_from_decl]⟩
  intro t specs src
  cases t with
  | true => exact ⟨EdgeKind.TypeOnly, by simp [extract_from_decl], by simp, Or.inl rfl⟩
  | false =>
    cases hall : (!specs.isEmpty && specs.all (fun s =>
        match s with
        | ImportSpecifier.named t => t
        | _ => false)) with
    | true =>
      refine ⟨EdgeKind.TypeOnly, by simp [extract_from_decl, hall], ?_, Or.inl rfl⟩
      simp only [true_iff]
      rw [Bool.and_eq_true] at hall
      refine Or.inr ⟨by simpa using hall.1, ?_⟩
      intro s hs
      exact (importSpec_flag_iff s).mp (List.all_eq_true.mp hall.2 s hs)
    | false =>
      refine ⟨EdgeKind.Static, by simp [extract_from_decl, hall], ?_, Or.inr rfl⟩
      constructor
      · intro hcon
        exact absurd hcon (by simp)
      · rintro (hcon | ⟨hne, hful⟩)
        · exact absurd hcon (by simp)
        · rw [Bool.and_eq_false_iff] at hall
          rcases hall with hall | hall
          · simp at hall
            exact absurd hall hne
          · rw [List.all_eq_false] at hall
            obtain ⟨x, hx, hpx⟩ := hall
            obtain ⟨b, hb, hbt⟩ := hful x hx
            subst hb; subst hbt
            simp at hpx

theorem C5_witness :
    extract_from_decl (.importDecl false [.named true] "m") =
      [⟨"m", EdgeKind.TypeOnly⟩] := by
  obtain ⟨k, hk, hiff, _⟩ := C5_import_kind.1 false [.named true] "m"
  have hko : k = EdgeKind.TypeOnly := by
    refine hiff.mpr (Or.inr ⟨by simp, ?_⟩)
    intro s hs
    simp at hs
    exact ⟨true, hs, rfl⟩
  rw [hko] at hk
  exact hk

/-- Claim C2 (the code evaluated at the failing inputs): for a non-literal
`require` argument (a string concatenation) and a non-literal `import()`
argument (an identifier), the extractor emits no import entry — and its
entire output for such a file is empty, so nothing increments any
unresolvable-dynamic counter: the extraction functions in parser.rs and
lang/typescript/parser.rs produce only the import list and contain no
counter at all. -/
theorem C2_no_counter_increment :
    walk_expr (.call (.exprCallee (.ident "require"))
        [.bin (.lit (.str "a")) (.lit (.str "b"))]) = [] ∧
    walk_expr (.call .importCallee [.ident "p"]) = [] ∧
    extract_imports [.stmt (.declStmt (.varDecl
        [some (.call (.exprCallee (.ident "require"))
          [.bin (.lit (.str "a")) (.lit (.str "b"))])]))] = [] ∧
    extract_imports [.stmt (.declStmt (.varDecl
        [some (.call .importCallee [.ident "p"])]))] = [] := by
  refine ⟨?_, ?_, ?_, ?_⟩ <;>
    simp [extract_imports, walk_stmt, walk_decl, walk_optExprs, walk_expr,
      walk_exprs]

/-- Claim C10: once the walker recognizes a call as a dynamic `import(...)`
or as `require(...)` with the bare identifier `require` as callee, it
returns without traversing the call's arguments: any extracted entry can
only come from a string-literal first argument, so imports nested inside
such arguments yield nothing, while the same expressions elsewhere are
extracted. -/
theorem C10_recognized_call_args_skipped :
    (∀ (args : List JsExpr) (s : String) (k : EdgeKind),
       (⟨s, k⟩ : RawImport) ∈ walk_expr (.call .importCallee args) →
         (∃ rest, args = .lit (.str s) :: rest) ∧ k = EdgeKind.Dynamic) ∧
    (∀ (args : List JsExpr) (s : String) (k : EdgeKind),
       (⟨s, k⟩ : RawImport) ∈
           walk_expr (.call (.exprCallee (.ident "require")) args) →
         (∃ rest, args = .lit (.str s) :: rest) ∧ k = EdgeKind.Static) ∧
    walk_expr (.call (.exprCallee (.ident "require"))
      [.call (.exprCallee (.ident "require")) [.lit (.str "inner")]]) = [] ∧
    walk_expr (.call .importCallee
      [.cond (.ident "c") (.lit (.str "a")) (.lit (.str "b"))]) = [] ∧
    walk_expr (.call .importCallee [.call .importCallee [.lit (.str "x")]]) = [] ∧
    walk_expr (.call (.exprCallee (.ident "f"))
      [.call (.exprCallee (.ident "require")) [.lit (.str "inner")]]) =
      [⟨"inner", EdgeKind.Static⟩] ∧
    walk_expr (.call (.exprCallee (.ident "require")) [.lit (.str "inner")]) =
      [⟨"inner", EdgeKind.Static⟩] := by
  refine ⟨?_, ?_, by simp [walk_expr, walk_exprs], by simp [walk_expr],
    by simp [walk_expr], by simp [walk_expr, walk_exprs],
    by simp [walk_expr]⟩
  · intro args s k h
    cases args with
    | nil => simp [walk_expr] at h
    | cons a rest =>
      cases a with
      | lit l =>
        cases l with
        | str v =>
          simp [walk_expr] at h
          obtain ⟨hs, hk⟩ := h
          subst hs; subst hk
          exact ⟨⟨rest, rfl⟩, rfl⟩
        | otherLit => simp [walk_expr] at h
      | call c as => simp [walk_expr] at h
      | ident sym => simp [walk_expr] at h
      | arrow b => simp [walk_expr] at h
      | fnExpr b => simp [walk_expr] at h
      | assign r => simp [walk_expr] at h
      | seq es => simp [walk_expr] at h
      | paren e => simp [walk_expr] at h
      | awaitExpr e => simp [walk_expr] at h
      | cond a b c => simp [walk_expr] at h
      | bin l r => simp [walk_expr] at h
      | unary u => simp [walk_expr] at h
      | member o => simp [walk_expr] at h
      | array es => simp [walk_expr] at h
      | object ps => simp [walk_expr] at h
      | tpl es => simp [walk_expr] at h
      | otherExpr => simp [walk_expr] at h
  · intro args s k h
    cases args with
    | nil => simp [walk_expr] at h
    | cons a rest =>
      cases a with
      | lit l =>
        cases l with
        | str v =>
          simp [walk_expr] at h
          obtain ⟨hs, hk⟩ := h
          subst hs; subst hk
          exact ⟨⟨rest, rfl⟩, rfl⟩
        | otherLit => simp [walk_expr] at h
      | call c as => simp [walk_expr] at h
      | ident sym => simp [walk_expr] at h
      | arrow b => simp [walk_expr] at h
      | fnExpr b => simp [walk_expr] at h
      | assign r => simp [walk_expr] at h
      | seq es => simp [walk_expr] at h
      | paren e => simp [walk_expr] at h
      | awaitExpr e => simp [walk_expr] at h
      | cond a b c => simp [walk_expr] at h
      | bin l r => simp [walk_expr] at h
      | unary u => simp [walk_expr] at h
      | member o => simp [walk_expr] at h
      | array es => simp [walk_expr] at h
      | object ps => simp [walk_expr] at h
      | tpl es => simp [walk_expr] at h
      | otherExpr => simp [walk_expr] at h

theorem C10_witness :
    (∃ rest, [(JsExpr.lit (JsLit.str "m"))] = JsExpr.lit (JsLit.str "m") :: rest) ∧
      EdgeKind.Dynamic = EdgeKind.Dynamic :=
  C10_recognized_call_args_skipped.1 [.lit (.str "m")] "m" EdgeKind.Dynamic
    (by simp [walk_expr])

/-! ## Graph builder (src/walker.rs)

`build_graph` is generic over the `LanguageSupport` trait object
(src/lang/mod.rs); the trait is embedded as a structure of functions.
`resolve` receives the importing file's directory, produced by
`path.parent()`, embedded as an abstract `parent` function on atomic
paths.  The parse cache used by walker.rs is the three-argument variant
(`lookup` returning the parse result together with its previously
resolved paths, `insert` taking them); its definition is not among the
sources (cache.rs holds the two-argument variant), so per spec §4.4/§4.5
it is embedded as an abstract read-only hit function `cacheLookup`
(walker.rs's lookups never observe the same build's inserts: a path is
looked up only when its module was just created, and inserts are keyed by
module paths that already exist) plus an `inserts` log.  The `rayon`
parallel resolve/parse phases preserve order (ordered `collect`), so they
are embedded as `map`/`filterMap`. -/

/-- The `LanguageSupport` trait object (src/lang/mod.rs) as a record of
functions; `parse` returns `none` for `Err`, and `is_parseable` is the
extension test of walker.rs against `lang.extensions()`. -/
structure Lang where
  parse : String → Option ParseResult
  resolve : String → String → Option String
  package_name : String → Option String
  workspace_package_name : String → Option String
  is_parseable : String → Bool
  parent : String → String

/-- `HashSet::insert`: append if absent (insertion-ordered set). -/
def hsInsert {α : Type} [DecidableEq α] (l : List α) (x : α) : List α :=
  if x ∈ l then l else l ++ [x]

/-- A frontier tuple `(source-module-id, unresolvable-dynamic-count,
pre-resolved imports)` as queued in walker.rs. -/
abbrev Frontier : Type := Nat × Nat × List (RawImport × Option String)

/-- The mutable state of `build_graph`, with observability fields
(`warnings` = paths whose parse failed, reported via `eprintln!`;
`parseLog` = every path handed to `lang.parse`; `inserts` = every
`cache.insert` call). -/
structure BuildState where
  graph : ModuleGraph
  unresolvable_files : List (String × Nat)
  unresolved : List String
  parse_failures : List Nat
  pending : List Frontier
  warnings : List String
  parseLog : List String
  inserts : List (String × ParseResult × List (Option String))

/-- The inner loop of serial phase 1: one frontier tuple's pre-resolved
imports.  Unresolved imports go to the specifier set; already-known
targets only get an edge; unknown targets become modules (size from a
fresh metadata read, `unwrap_or(0)`; package from `package_name` with
`workspace_package_name` fallback), get an edge, and are appended to
`new_files` when parseable and not a recorded parse failure. -/
def processImports (fs : Fs) (lang : Lang) (parse_failures : List Nat) (sid : Nat) :
    List (RawImport × Option String) → ModuleGraph → List String → List Nat →
      ModuleGraph × List String × List Nat
  | [], g, unresolved, new_files => (g, unresolved, new_files)
  | (ri, rp) :: rest, g, unresolved, new_files =>
    match rp with
    | none =>
      processImports fs lang parse_failures sid rest g
        (hsInsert unresolved ri.specifier) new_files
    | some p =>
      match List.lookup p g.path_to_id with
      | some tid =>
        processImports fs lang parse_failures sid rest
          (g.add_edge sid tid ri.kind ri.specifier).1 unresolved new_files
      | none =>
        let package :=
          match lang.package_name p with
          | some pk => some pk
          | none => lang.workspace_package_name p
        let size :=
          match fs p with
          | some meta => meta.size
          | none => 0
        let gt := g.add_module p size package
        let g2 := (gt.1.add_edge sid gt.2 ri.kind ri.specifier).1
        let new_files' :=
          if lang.is_parseable p && !(parse_failures.contains gt.2) then
            new_files ++ [gt.2]
          else new_files
        processImports fs lang parse_failures sid rest g2 unresolved new_files'

/-- Serial phase 1 over the drained frontier: record the tuple's
unresolvable-dynamic count (when positive) against the source module's
path, then process its imports. -/
def phase1 (fs : Fs) (lang : Lang) (parse_failures : List Nat) :
    List Frontier → ModuleGraph → List (String × Nat) → List String →
      List Nat → ModuleGraph × List (String × Nat) × List String × List Nat
  | [], g, ufiles, unresolved, new_files => (g, ufiles, unresolved, new_files)
  | (sid, ud, ris) :: rest, g, ufiles, unresolved, new_files =>
    let ufiles' := if ud > 0 then ufiles ++ [(g.modulePath sid, ud)] else ufiles
    let pr := processImports fs lang parse_failures sid ris g unresolved new_files
    phase1 fs lang parse_failures rest pr.1 ufiles' pr.2.1 pr.2.2

/-- Serial phase 2: cache check.  Hits become frontier tuples (skipping
phase 3); misses are queued for parsing. -/
def phase2 (cacheLookup : String → Option (ParseResult × List (Option String)))
    (g : ModuleGraph) : List Nat → List Frontier × List Nat
  | [] => ([], [])
  | mid :: rest =>
    let pt := phase2 cacheLookup g rest
    match cacheLookup (g.modulePath mid) with
    | some rr =>
      ((mid, rr.1.unresolvable_dynamic, rr.1.imports.zip rr.2) :: pt.1, pt.2)
    | none => (pt.1, mid :: pt.2)

/-- Parallel phase 3: parse each cache miss and resolve its imports against
the file's own directory (ordered parallel collect = `filterMap`). -/
def phase3 (lang : Lang) (g : ModuleGraph) (to_parse : List Nat) :
    List (Nat × ParseResult × List (RawImport × Option String)) :=
  to_parse.filterMap (fun mid =>
    match lang.parse (g.modulePath mid) with
    | some res =>
      some (mid, res, res.imports.map (fun imp =>
        (imp, lang.resolve (lang.parent (g.modulePath mid)) imp.specifier)))
    | none => none)

/-- One iteration of the BFS loop: drain the queue, run phases 1-3, then
(serial phase 4) record parse failures and warnings, log cache inserts for
parsed files, and enqueue the new frontier tuples (cache hits first, then
parse results, both in discovery order). -/
def buildStep (fs : Fs) (lang : Lang)
    (cacheLookup : String → Option (ParseResult × List (Option String)))
    (st : BuildState) : BuildState :=
  let p1 := phase1 fs lang st.parse_failures st.pending st.graph
    st.unresolvable_files st.unresolved []
  let g := p1.1
  let p2 := phase2 cacheLookup g p1.2.2.2
  let results := phase3 lang g p2.2
  let failedIds := p2.2.filter (fun mid => (lang.parse (g.modulePath mid)).isNone)
  { graph := g,
    unresolvable_files := p1.2.1,
    unresolved := p1.2.2.1,
    parse_failures := st.parse_failures ++ failedIds,
    pending := p2.1 ++ results.map (fun r => (r.1, r.2.1.unresolvable_dynamic, r.2.2)),
    warnings := st.warnings ++ failedIds.map (fun mid => g.modulePath mid),
    parseLog := st.parseLog ++ p2.2.map (fun mid => g.modulePath mid),
    inserts := st.inserts ++ results.map (fun r =>
      (g.modulePath r.1, r.2.1, r.2.2.map (fun ir => ir.2))) }

/-- The `while !pending.is_empty()` loop, with fuel.  Each module enters the
queue at most once (a frontier tuple is created only for a freshly added
module, or for the entry at bootstrap), so any fuel of at least the number
of distinct files reaches the empty queue; the theorems below hold for
every fuel. -/
def buildLoop (fs : Fs) (lang : Lang)
    (cacheLookup : String → Option (ParseResult × List (Option String))) :
    Nat → BuildState → BuildState
  | 0, st => st
  | Nat.succ fuel, st =>
    if st.pending.isEmpty then st
    else buildLoop fs lang cacheLookup fuel (buildStep fs lang cacheLookup st)

/-- `build_graph` from walker.rs: insert the entry module, consult the cache
for its parse (else parse it, resolve its imports in order, and insert into
the cache); a failed entry parse yields a warning and a permanent parse
failure; then run the BFS loop.  `compute_package_info` (whose definition
is not among the sources) mutates only the omitted `package_map` and is
not modelled. -/
def build_graph (fs : Fs) (lang : Lang)
    (cacheLookup : String → Option (ParseResult × List (Option String)))
    (entry : String) (fuel : Nat) : BuildState :=
  let entry_size :=
    match fs entry with
    | some m => m.size
    | none => 0
  let gm := ModuleGraph.new.add_module entry entry_size none
  let st0 : BuildState :=
    match cacheLookup entry with
    | some rr =>
      { graph := gm.1,
        unresolvable_files :=
          if rr.1.unresolvable_dynamic > 0 then [(entry, rr.1.unresolvable_dynamic)]
          else [],
        unresolved := [],
        parse_failures := [],
        pending := [(gm.2, 0, rr.1.imports.zip rr.2)],
        warnings := [],
        parseLog := [],
        inserts := [] }
    | none =>
      match lang.parse entry with
      | some res =>
        let resolved := res.imports.map (fun imp =>
          (imp, lang.resolve (lang.parent entry) imp.specifier))
        { graph := gm.1,
          unresolvable_files :=
            if res.unresolvable_dynamic > 0 then [(entry, res.unresolvable_dynamic)]
            else [],
          unresolved := [],
          parse_failures := [],
          pending := [(gm.2, 0, resolved)],
          warnings := [],
          parseLog := [entry],
          inserts := [(entry, res, resolved.map (fun ir => ir.2))] }
      | none =>
        { graph := gm.1,
          unresolvable_files := [],
          unresolved := [],
          parse_failures := [gm.2],
          pending := [],
          warnings := [entry],
          parseLog := [entry],
          inserts := [] }
  buildLoop fs lang cacheLookup fuel st0

/-! ## Build-loop invariants (towards claims C7 and C1) -/

theorem add_module_eq (g : ModuleGraph) (p : String) (s : Nat) (pk : Option String) :
    g.add_module p s pk =
      match List.lookup p g.path_to_id with
      | some id => (g, id)
      | none =>
        ({ modules := g.modules ++ [{ id := g.modules.length, path := p,
                                      size_bytes := s, package := pk }],
           edges := g.edges,
           forward_adj := g.forward_adj ++ [[]],
           path_to_id := g.path_to_id ++ [(p, g.modules.length)] },
         g.modules.length) := rfl

theorem add_module_len (g : ModuleGraph) (p : String) (s : Nat) (pk : Option String) :
    g.modules.length ≤ (g.add_module p s pk).1.modules.length := by
  rw [add_module_eq]
  cases List.lookup p g.path_to_id <;> simp

theorem add_module_modules_grow (g : ModuleGraph) (p : String) (s : Nat)
    (pk : Option String) :
    ∃ tail, (g.add_module p s pk).1.modules = g.modules ++ tail := by
  rw [add_module_eq]
  cases List.lookup p g.path_to_id with
  | some id => exact ⟨[], by simp⟩
  | none => exact ⟨_, rfl⟩

theorem add_module_ptoi_grow (g : ModuleGraph) (p : String) (s : Nat)
    (pk : Option String) :
    ∃ tail, (g.add_module p s pk).1.path_to_id = g.path_to_id ++ tail := by
  rw [add_module_eq]
  cases List.lookup p g.path_to_id with
  | some id => exact ⟨[], by simp⟩
  | none => exact ⟨_, rfl⟩

theorem add_module_edges (g : ModuleGraph) (p : String) (s : Nat) (pk : Option String) :
    (g.add_module p s pk).1.edges = g.edges := by
  rw [add_module_eq]
  cases List.lookup p g.path_to_id <;> rfl

theorem add_module_adj_getD (g : ModuleGraph) (p : String) (s : Nat)
    (pk : Option String) (id : Nat) :
    (g.add_module p s pk).1.forward_adj.getD id [] = g.forward_adj.getD id [] := by
  rw [add_module_eq]
  cases List.lookup p g.path_to_id with
  | some i => rfl
  | none =>
    dsimp only
    rcases Nat.lt_or_ge id g.forward_adj.length with h | h
    · exact getD_append_lt _ _ _ _ h
    · rw [getD_append_ge _ _ _ _ h, List.getD_eq_default _ _ h]
      cases hd : id - g.forward_adj.length with
      | zero => rfl
      | succ n => rfl

theorem add_module_lookup_self (g : ModuleGraph) (p : String) (s : Nat)
    (pk : Option String) :
    List.lookup p (g.add_module p s pk).1.path_to_id = some (g.add_module p s pk).2 := by
  rw [add_module_eq]
  cases hl : List.lookup p g.path_to_id with
  | some id => exact hl
  | none =>
    dsimp only
    rw [lookup_append, hl]
    simp

theorem add_edge_ptoi (g : ModuleGraph) (f t : Nat) (k : EdgeKind) (sp : String) :
    (g.add_edge f t k sp).1.path_to_id = g.path_to_id := by
  rw [add_edge_eq]
  cases (g.forward_adj.getD f []).find? (edgeMatch g t k) <;> rfl

theorem add_edge_adj_ne (g : ModuleGraph) (f t : Nat) (k : EdgeKind) (sp : String)
    (id : Nat) (hne : id ≠ f) :
    (g.add_edge f t k sp).1.forward_adj.getD id [] = g.forward_adj.getD id [] := by
  rw [add_edge_eq]
  cases (g.forward_adj.getD f []).find? (edgeMatch g t k) with
  | some eid => rfl
  | none =>
    dsimp only
    rw [getD_set, if_neg (fun h => hne h.symm)]

/-- `List.lookup` hits are preserved when the association list is extended
on the right. -/
theorem lookup_mono {β : Type} (k : String) (l tail : List (String × β)) (v : β)
    (h : List.lookup k l = some v) : List.lookup k (l ++ tail) = some v := by
  rw [lookup_append, h]

/-- `modulePath` of an in-bounds id reads the module's path. -/
theorem modulePath_eq (g : ModuleGraph) (id : Nat) (h : id < g.modules.length) :
    g.modulePath id = (g.modules[id]).path := by
  unfold ModuleGraph.modulePath
  rw [List.get?_eq_getElem?, List.getElem?_eq_getElem h]

/-- Paths of in-bounds modules are stable under extension of the modules
vector. -/
theorem modulePath_stable (g g2 : ModuleGraph) (id : Nat)
    (h : ∃ tail, g2.modules = g.modules ++ tail) (hid : id < g.modules.length) :
    g2.modulePath id = g.modulePath id := by
  obtain ⟨tail, htail⟩ := h
  unfold ModuleGraph.modulePath
  rw [List.get?_eq_getElem?, List.get?_eq_getElem?, htail,
    List.getElem?_append_left hid]

/-- Combined effect of the phase-1 inner loop on the graph and the
`new_files` accumulator, for a frontier source id below the
iteration-start module count `base`. -/
theorem processImports_spec (fs : Fs) (lang : Lang) (pf : List Nat) (base sid : Nat)
    (hsidb : sid < base) :
    ∀ (ris : List (RawImport × Option String)) (g : ModuleGraph)
      (unresolved : List String) (nf : List Nat),
      g.WF → g.IndexWF → base ≤ g.modules.length →
      (∀ x ∈ nf, base ≤ x ∧ x < g.modules.length ∧ g.forward_adj.getD x [] = []) →
      nf.Nodup →
      (processImports fs lang pf sid ris g unresolved nf).1.WF ∧
      (processImports fs lang pf sid ris g unresolved nf).1.IndexWF ∧
      g.modules.length ≤
        (processImports fs lang pf sid ris g unresolved nf).1.modules.length ∧
      (∃ tailM, (processImports fs lang pf sid ris g unresolved nf).1.modules =
        g.modules ++ tailM) ∧
      (∃ tailP, (processImports fs lang pf sid ris g unresolved nf).1.path_to_id =
        g.path_to_id ++ tailP) ∧
      (∀ id, id ≠ sid →
        (processImports fs lang pf sid ris g unresolved nf).1.forward_adj.getD id [] =
          g.forward_adj.getD id []) ∧
      (∀ x ∈ (processImports fs lang pf sid ris g unresolved nf).2.2,
        base ≤ x ∧
        x < (processImports fs lang pf sid ris g unresolved nf).1.modules.length ∧
        (processImports fs lang pf sid ris g unresolved nf).1.forward_adj.getD x [] = []) ∧
      (processImports fs lang pf sid ris g unresolved nf).2.2.Nodup := by
  intro ris
  induction ris with
  | nil =>
    intro g unresolved nf hw hi hb hnf hnfd
    exact ⟨hw, hi, Nat.le_refl _, ⟨[], by simp [processImports]⟩,
      ⟨[], by simp [processImports]⟩, fun id _ => rfl, hnf, hnfd⟩
  | cons head rest ih =>
    obtain ⟨ri, rp⟩ := head
    intro g unresolved nf hw hi hb hnf hnfd
    cases rp with
    | none =>
      simp only [processImports]
      exact ih g (hsInsert unresolved ri.specifier) nf hw hi hb hnf hnfd
    | some p =>
      simp only [processImports]
      cases hl : List.lookup p g.path_to_id with
      | some tid =>
        obtain ⟨htid, _⟩ := hi.sound p tid hl
        have hsid : sid < g.modules.length := Nat.lt_of_lt_of_le hsidb hb
        have hw2 : (g.add_edge sid tid ri.kind ri.specifier).1.WF :=
          ModuleGraph.wf_add_edge g sid tid ri.kind ri.specifier hw hsid htid
        have hi2 : (g.add_edge sid tid ri.kind ri.specifier).1.IndexWF :=
          ModuleGraph.indexwf_add_edge g sid tid ri.kind ri.specifier hi
        have hmod : (g.add_edge sid tid ri.kind ri.specifier).1.modules = g.modules :=
          add_edge_modules g sid tid ri.kind ri.specifier
        have hptoi : (g.add_edge sid tid ri.kind ri.specifier).1.path_to_id =
            g.path_to_id := add_edge_ptoi g sid tid ri.kind ri.specifier
        have hnf2 : ∀ x ∈ nf, base ≤ x ∧
            x < (g.add_edge sid tid ri.kind ri.specifier).1.modules.length ∧
            (g.add_edge sid tid ri.kind ri.specifier).1.forward_adj.getD x [] = [] := by
          intro x hx
          obtain ⟨h1, h2, h3⟩ := hnf x hx
          refine ⟨h1, by rw [hmod]; exact h2, ?_⟩
          rw [add_edge_adj_ne g sid tid ri.kind ri.specifier x (by omega), h3]
        obtain ⟨c1, c2, c3, ⟨tm, hm⟩, ⟨tp, hp⟩, c6, c7, c8⟩ :=
          ih (g.add_edge sid tid ri.kind ri.specifier).1 unresolved nf hw2 hi2
            (by rw [hmod]; exact hb) hnf2 hnfd
        refine ⟨c1, c2, ?_, ⟨tm, by rw [hm, hmod]⟩, ⟨tp, by rw [hp, hptoi]⟩, ?_, c7, c8⟩
        · rw [hmod] at c3; exact c3
        · intro id hid
          rw [c6 id hid, add_edge_adj_ne g sid tid ri.kind ri.specifier id (by omega)]
      | none =>
        have hsid : sid < g.modules.length := Nat.lt_of_lt_of_le hsidb hb
        dsimp only
        generalize (match fs p with
          | some meta => meta.size
          | none => 0) = sz
        generalize (match lang.package_name p with
          | some pk => some pk
          | none => lang.workspace_package_name p) = pk
        have hgt1m : (g.add_module p sz pk).1.modules =
            g.modules ++ [{ id := g.modules.length, path := p, size_bytes := sz,
                            package := pk }] := by
          rw [add_module_eq, hl]
        have hgt1p : (g.add_module p sz pk).1.path_to_id =
            g.path_to_id ++ [(p, g.modules.length)] := by
          rw [add_module_eq, hl]
        have hgt2 : (g.add_module p sz pk).2 = g.modules.length := by
          rw [add_module_eq, hl]
        have hgt1len : (g.add_module p sz pk).1.modules.length =
            g.modules.length + 1 := by rw [hgt1m]; simp
        have hw1 : (g.add_module p sz pk).1.WF :=
          ModuleGraph.wf_add_module g p sz pk hw
        have hi1 : (g.add_module p sz pk).1.IndexWF :=
          ModuleGraph.indexwf_add_module g p sz pk hi
        have htid_lt : (g.add_module p sz pk).2 <
            (g.add_module p sz pk).1.modules.length := by
          rw [hgt2, hgt1len]; omega
        have hsid1 : sid < (g.add_module p sz pk).1.modules.length := by
          rw [hgt1len]; omega
        have hw2 : ((g.add_module p sz pk).1.add_edge sid (g.add_module p sz pk).2
            ri.kind ri.specifier).1.WF :=
          ModuleGraph.wf_add_edge _ _ _ _ _ hw1 hsid1 htid_lt
        have hi2 : ((g.add_module p sz pk).1.add_edge sid (g.add_module p sz pk).2
            ri.kind ri.specifier).1.IndexWF :=
          ModuleGraph.indexwf_add_edge _ _ _ _ _ hi1
        have hg2m : ((g.add_module p sz pk).1.add_edge sid (g.add_module p sz pk).2
            ri.kind ri.specifier).1.modules = (g.add_module p sz pk).1.modules :=
          add_edge_modules _ _ _ _ _
        have hg2p : ((g.add_module p sz pk).1.add_edge sid (g.add_module p sz pk).2
            ri.kind ri.specifier).1.path_to_id = (g.add_module p sz pk).1.path_to_id :=
          add_edge_ptoi _ _ _ _ _
        have hbase2 : base ≤ ((g.add_module p sz pk).1.add_edge sid
            (g.add_module p sz pk).2 ri.kind ri.specifier).1.modules.length := by
          rw [hg2m, hgt1len]; omega
        -- the freshly created module has an empty adjacency list afterwards
        have hfresh_adj : ((g.add_module p sz pk).1.add_edge sid
            (g.add_module p sz pk).2 ri.kind ri.specifier).1.forward_adj.getD
            ((g.add_module p sz pk).2) [] = [] := by
          rw [hgt2]
          rw [add_edge_adj_ne _ _ _ _ _ _ (by omega)]
          rw [add_module_eq, hl]
          dsimp only
          rw [getD_append_ge _ _ _ _ (by rw [hw.adj_len]), hw.adj_len]
          simp
        have hnfboth : ∀ x ∈ nf ++ [(g.add_module p sz pk).2], base ≤ x ∧
            x < ((g.add_module p sz pk).1.add_edge sid (g.add_module p sz pk).2
              ri.kind ri.specifier).1.modules.length ∧
            ((g.add_module p sz pk).1.add_edge sid (g.add_module p sz pk).2
              ri.kind ri.specifier).1.forward_adj.getD x [] = [] := by
          intro x hx
          rcases List.mem_append.mp hx with hx | hx
          · obtain ⟨h1, h2, h3⟩ := hnf x hx
            refine ⟨h1, by rw [hg2m, hgt1len]; omega, ?_⟩
            rw [add_edge_adj_ne _ _ _ _ _ _ (by omega), add_module_adj_getD, h3]
          · rw [List.mem_singleton] at hx
            subst hx
            exact ⟨by rw [hgt2]; exact hb, by rw [hg2m, hgt1len, hgt2]; omega,
              hfresh_adj⟩
        have hnfdboth : (nf ++ [(g.add_module p sz pk).2]).Nodup := by
          rw [List.nodup_append]
          refine ⟨hnfd, List.nodup_singleton _, ?_⟩
          intro x hx hx2
          simp only [List.mem_singleton] at hx2
          subst hx2
          have h2 := (hnf _ hx).2.1
          rw [hgt2] at h2
          omega
        by_cases hif : (lang.is_parseable p && !(pf.contains (g.add_module p sz pk).2)) = true
        · rw [if_pos hif]
          obtain ⟨c1, c2, c3, ⟨tm, hm⟩, ⟨tp, hp⟩, c6, c7, c8⟩ :=
            ih _ unresolved _ hw2 hi2 hbase2 hnfboth hnfdboth
          refine ⟨c1, c2, ?_, ⟨_, by rw [hm, hg2m, hgt1m, List.append_assoc]⟩,
            ⟨_, by rw [hp, hg2p, hgt1p, List.append_assoc]⟩, ?_, c7, c8⟩
          · rw [hg2m, hgt1len] at c3; omega
          · intro id hid
            rw [c6 id hid, add_edge_adj_ne _ _ _ _ _ _ (by omega),
              add_module_adj_getD]
        · rw [if_neg hif]
          have hnfonly : ∀ x ∈ nf, base ≤ x ∧
              x < ((g.add_module p sz pk).1.add_edge sid (g.add_module p sz pk).2
                ri.kind ri.specifier).1.modules.length ∧
              ((g.add_module p sz pk).1.add_edge sid (g.add_module p sz pk).2
                ri.kind ri.specifier).1.forward_adj.getD x [] = [] :=
            fun x hx => hnfboth x (List.mem_append_left _ hx)
          obtain ⟨c1, c2, c3, ⟨tm, hm⟩, ⟨tp, hp⟩, c6, c7, c8⟩ :=
            ih _ unresolved _ hw2 hi2 hbase2 hnfonly hnfd
          refine ⟨c1, c2, ?_, ⟨_, by rw [hm, hg2m, hgt1m, List.append_assoc]⟩,
            ⟨_, by rw [hp, hg2p, hgt1p, List.append_assoc]⟩, ?_, c7, c8⟩
          · rw [hg2m, hgt1len] at c3; omega
          · intro id hid
            rw [c6 id hid, add_edge_adj_ne _ _ _ _ _ _ (by omega),
              add_module_adj_getD]

/-- Combined effect of serial phase 1 over a drained frontier whose source
ids all lie below the iteration-start module count `base`. -/
theorem phase1_spec (fs : Fs) (lang : Lang) (pf : List Nat) (base : Nat) :
    ∀ (frontier : List Frontier) (g : ModuleGraph) (ufiles : List (String × Nat))
      (unresolved : List String) (nf : List Nat),
      g.WF → g.IndexWF → base ≤ g.modules.length →
      (∀ tpl ∈ frontier, tpl.1 < base) →
      (∀ x ∈ nf, base ≤ x ∧ x < g.modules.length ∧ g.forward_adj.getD x [] = []) →
      nf.Nodup →
      (phase1 fs lang pf frontier g ufiles unresolved nf).1.WF ∧
      (phase1 fs lang pf frontier g ufiles unresolved nf).1.IndexWF ∧
      g.modules.length ≤
        (phase1 fs lang pf frontier g ufiles unresolved nf).1.modules.length ∧
      (∃ tailM, (phase1 fs lang pf frontier g ufiles unresolved nf).1.modules =
        g.modules ++ tailM) ∧
      (∃ tailP, (phase1 fs lang pf frontier g ufiles unresolved nf).1.path_to_id =
        g.path_to_id ++ tailP) ∧
      (∀ id, (∀ tpl ∈ frontier, id ≠ tpl.1) →
        (phase1 fs lang pf frontier g ufiles unresolved nf).1.forward_adj.getD id [] =
          g.forward_adj.getD id []) ∧
      (∀ x ∈ (phase1 fs lang pf frontier g ufiles unresolved nf).2.2.2,
        base ≤ x ∧
        x < (phase1 fs lang pf frontier g ufiles unresolved nf).1.modules.length ∧
        (phase1 fs lang pf frontier g ufiles unresolved nf).1.forward_adj.getD x [] = []) ∧
      (phase1 fs lang pf frontier g ufiles unresolved nf).2.2.2.Nodup := by
  intro frontier
  induction frontier with
  | nil =>
    intro g ufiles unresolved nf hw hi hb _ hnf hnfd
    exact ⟨hw, hi, Nat.le_refl _, ⟨[], by simp [phase1]⟩, ⟨[], by simp [phase1]⟩,
      fun id _ => rfl, hnf, hnfd⟩
  | cons head rest ih =>
    obtain ⟨sid, ud, ris⟩ := head
    intro g ufiles unresolved nf hw hi hb hfr hnf hnfd
    have hsidb : sid < base := hfr (sid, ud, ris) (List.mem_cons_self _ _)
    obtain ⟨c1, c2, c3, ⟨tm, hm⟩, ⟨tp, hp⟩, c6, c7, c8⟩ :=
      processImports_spec fs lang pf base sid hsidb ris g unresolved nf
        hw hi hb hnf hnfd
    simp only [phase1]
    obtain ⟨d1, d2, d3, ⟨tm2, hm2⟩, ⟨tp2, hp2⟩, d6, d7, d8⟩ :=
      ih (processImports fs lang pf sid ris g unresolved nf).1
        (if ud > 0 then ufiles ++ [(g.modulePath sid, ud)] else ufiles)
        (processImports fs lang pf sid ris g unresolved nf).2.1
        (processImports fs lang pf sid ris g unresolved nf).2.2
        c1 c2 (Nat.le_trans hb c3)
        (fun tpl htpl => hfr tpl (List.mem_cons_of_mem _ htpl)) c7 c8
    refine ⟨d1, d2, Nat.le_trans c3 d3,
      ⟨_, by rw [hm2, hm, List.append_assoc]⟩,
      ⟨_, by rw [hp2, hp, List.append_assoc]⟩, ?_, d7, d8⟩
    intro id hid
    rw [d6 id (fun tpl htpl => hid tpl (List.mem_cons_of_mem _ htpl)),
      c6 id (hid (sid, ud, ris) (List.mem_cons_self _ _))]

theorem phase2_fst_spec (cl : String → Option (ParseResult × List (Option String)))
    (g : ModuleGraph) :
    ∀ nf, ∀ tpl ∈ (phase2 cl g nf).1,
      tpl.1 ∈ nf ∧ ∃ rr, cl (g.modulePath tpl.1) = some rr := by
  intro nf
  induction nf with
  | nil => intro tpl h; simp [phase2] at h
  | cons mid rest ih =>
    intro tpl h
    simp only [phase2] at h
    cases hcl : cl (g.modulePath mid) with
    | some rr =>
      rw [hcl] at h
      rcases List.mem_cons.mp h with h | h
      · subst h
        exact ⟨List.mem_cons_self _ _, rr, hcl⟩
      · obtain ⟨h1, h2⟩ := ih tpl h
        exact ⟨List.mem_cons_of_mem _ h1, h2⟩
    | none =>
      rw [hcl] at h
      obtain ⟨h1, h2⟩ := ih tpl h
      exact ⟨List.mem_cons_of_mem _ h1, h2⟩

theorem phase2_snd_sublist (cl : String → Option (ParseResult × List (Option String)))
    (g : ModuleGraph) :
    ∀ nf, (phase2 cl g nf).2.Sublist nf := by
  intro nf
  induction nf with
  | nil => simp [phase2]
  | cons mid rest ih =>
    simp only [phase2]
    cases hcl : cl (g.modulePath mid) with
    | some rr => exact (ih).cons _
    | none => exact (ih).cons₂ _

theorem phase2_snd_lookup (cl : String → Option (ParseResult × List (Option String)))
    (g : ModuleGraph) :
    ∀ nf, ∀ x ∈ (phase2 cl g nf).2, cl (g.modulePath x) = none := by
  intro nf
  induction nf with
  | nil => intro x h; simp [phase2] at h
  | cons mid rest ih =>
    intro x h
    simp only [phase2] at h
    cases hcl : cl (g.modulePath mid) with
    | some rr =>
      rw [hcl] at h
      exact ih x h
    | none =>
      rw [hcl] at h
      rcases List.mem_cons.mp h with h | h
      · subst h; exact hcl
      · exact ih x h

theorem phase3_mem (lang : Lang) (g : ModuleGraph) (tp : List Nat) :
    ∀ r ∈ phase3 lang g tp, r.1 ∈ tp ∧ lang.parse (g.modulePath r.1) = some r.2.1 := by
  intro r hr
  unfold phase3 at hr
  obtain ⟨mid, hmid, hf⟩ := List.mem_filterMap.mp hr
  cases hp : lang.parse (g.modulePath mid) with
  | none => rw [hp] at hf; simp at hf
  | some res =>
    rw [hp] at hf
    simp only [Option.some.injEq] at hf
    subst hf
    exact ⟨hmid, hp⟩

/-- The build-loop invariant: the graph store and path index are
well-formed; every queued frontier source is a live module that has not
failed to parse; recorded parse failures are live modules with empty
adjacency; the parse log has no repeats and names only module paths; and
every logged path whose parse fails has produced a warning and a recorded
failure. -/
structure BuildInv (lang : Lang) (st : BuildState) : Prop where
  wf : st.graph.WF
  iwf : st.graph.IndexWF
  pending_src : ∀ tpl ∈ st.pending,
    tpl.1 < st.graph.modules.length ∧ tpl.1 ∉ st.parse_failures
  failures_valid : ∀ id ∈ st.parse_failures, id < st.graph.modules.length
  failures_leaf : ∀ id ∈ st.parse_failures, st.graph.forward_adj.getD id [] = []
  log_nodup : st.parseLog.Nodup
  log_modules : ∀ p ∈ st.parseLog,
    ∃ id, List.lookup p st.graph.path_to_id = some id
  log_failed : ∀ p ∈ st.parseLog, lang.parse p = none →
    p ∈ st.warnings ∧ ∃ id, ∃ h : id < st.graph.modules.length,
      (st.graph.modules[id]).path = p ∧ id ∈ st.parse_failures

/-- One build-loop iteration preserves the invariant. -/
theorem buildStep_inv (fs : Fs) (lang : Lang)
    (cl : String → Option (ParseResult × List (Option String)))
    (st : BuildState) (hinv : BuildInv lang st) :
    BuildInv lang (buildStep fs lang cl st) := by
  obtain ⟨hw, hi, hps, hfv, hfl, hln, hlm, hlf⟩ := hinv
  obtain ⟨p1, p2, p3, ⟨tlM, hM⟩, ⟨tlP, hP⟩, p6, p7, p8⟩ :=
    phase1_spec fs lang st.parse_failures st.graph.modules.length st.pending
      st.graph st.unresolvable_files st.unresolved [] hw hi (Nat.le_refl _)
      (fun tpl htpl => (hps tpl htpl).1) (by simp) List.nodup_nil
  unfold buildStep
  dsimp only
  refine ⟨p1, p2, ?_, ?_, ?_, ?_, ?_, ?_⟩
  · -- pending_src
    intro tpl htpl
    rcases List.mem_append.mp htpl with h | h
    · obtain ⟨hmemnf, rr, hcl⟩ := phase2_fst_spec cl _ _ tpl h
      obtain ⟨hb, hlt, _⟩ := p7 tpl.1 hmemnf
      refine ⟨hlt, ?_⟩
      intro hmm
      rcases List.mem_append.mp hmm with hold | hnew
      · have := hfv tpl.1 hold; omega
      · have hnone := phase2_snd_lookup cl _ _ tpl.1 (List.mem_filter.mp hnew).1
        rw [hnone] at hcl
        exact Option.noConfusion hcl
    · obtain ⟨r, hrmem, hrtpl⟩ := List.mem_map.mp h
      obtain ⟨hrtp, hparse⟩ := phase3_mem lang _ _ r hrmem
      have hrnf : r.1 ∈ (phase1 fs lang st.parse_failures st.pending st.graph
          st.unresolvable_files st.unresolved []).2.2.2 :=
        (phase2_snd_sublist cl _ _).subset hrtp
      obtain ⟨hb, hlt, _⟩ := p7 r.1 hrnf
      rw [← hrtpl]
      dsimp only
      refine ⟨hlt, ?_⟩
      intro hmm
      rcases List.mem_append.mp hmm with hold | hnew
      · have := hfv r.1 hold; omega
      · have h2 := (List.mem_filter.mp hnew).2
        rw [hparse] at h2
        simp at h2
  · -- failures_valid
    intro id h
    rcases List.mem_append.mp h with hold | hnew
    · show id < (phase1 fs lang st.parse_failures st.pending st.graph
        st.unresolvable_files st.unresolved []).1.modules.length
      have := hfv id hold
      omega
    · have hidnf : id ∈ (phase1 fs lang st.parse_failures st.pending st.graph
          st.unresolvable_files st.unresolved []).2.2.2 :=
        (phase2_snd_sublist cl _ _).subset (List.mem_filter.mp hnew).1
      exact (p7 id hidnf).2.1
  · -- failures_leaf
    intro id h
    rcases List.mem_append.mp h with hold | hnew
    · rw [p6 id (fun tpl htpl heq => (hps tpl htpl).2 (heq ▸ hold))]
      exact hfl id hold
    · have hidnf : id ∈ (phase1 fs lang st.parse_failures st.pending st.graph
          st.unresolvable_files st.unresolved []).2.2.2 :=
        (phase2_snd_sublist cl _ _).subset (List.mem_filter.mp hnew).1
      exact (p7 id hidnf).2.2
  · -- log_nodup
    rw [List.nodup_append]
    refine ⟨hln, ?_, ?_⟩
    · refine List.Nodup.map_on ?_ ((phase2_snd_sublist cl _ _).nodup p8)
      intro x hx y hy hxy
      have hxnf := (phase2_snd_sublist cl _ _).subset hx
      have hynf := (phase2_snd_sublist cl _ _).subset hy
      obtain ⟨_, hxl, _⟩ := p7 x hxnf
      obtain ⟨_, hyl, _⟩ := p7 y hynf
      rw [modulePath_eq _ _ hxl, modulePath_eq _ _ hyl] at hxy
      have hcx := p2.complete x hxl
      have hcy := p2.complete y hyl
      rw [hxy] at hcx
      rw [hcx] at hcy
      exact Option.some.inj hcy
    · rw [List.disjoint_left]
      intro p hp1 hp2
      obtain ⟨id, hid⟩ := hlm p hp1
      obtain ⟨hidlt, _⟩ := hi.sound p id hid
      obtain ⟨x, hx, hpx⟩ := List.mem_map.mp hp2
      have hxnf := (phase2_snd_sublist cl _ _).subset hx
      obtain ⟨hxb, hxl, _⟩ := p7 x hxnf
      have hidG : List.lookup p (phase1 fs lang st.parse_failures st.pending
          st.graph st.unresolvable_files st.unresolved []).1.path_to_id = some id := by
        rw [hP]
        exact lookup_mono _ _ _ _ hid
      have hcx := p2.complete x hxl
      rw [← modulePath_eq _ _ hxl, hpx] at hcx
      rw [hidG] at hcx
      have := Option.some.inj hcx
      omega
  · -- log_modules
    intro p hp
    rcases List.mem_append.mp hp with hold | hnew
    · obtain ⟨id, hid⟩ := hlm p hold
      refine ⟨id, ?_⟩
      rw [hP]
      exact lookup_mono _ _ _ _ hid
    · obtain ⟨x, hx, hpx⟩ := List.mem_map.mp hnew
      have hxnf := (phase2_snd_sublist cl _ _).subset hx
      obtain ⟨_, hxl, _⟩ := p7 x hxnf
      refine ⟨x, ?_⟩
      have := p2.complete x hxl
      rwa [← modulePath_eq _ _ hxl, hpx] at this
  · -- log_failed
    intro p hp hnone
    rcases List.mem_append.mp hp with hold | hnew
    · obtain ⟨hwarn, id, hid, hpath, hmemf⟩ := hlf p hold hnone
      refine ⟨List.mem_append_left _ hwarn, id,
        (show id < (phase1 fs lang st.parse_failures st.pending st.graph
          st.unresolvable_files st.unresolved []).1.modules.length by omega), ?_,
        List.mem_append_left _ hmemf⟩
      have : (phase1 fs lang st.parse_failures st.pending st.graph
          st.unresolvable_files st.unresolved []).1.modules[id]? =
          some (st.graph.modules[id]) := by
        rw [hM, List.getElem?_append_left hid]
        exact List.getElem?_eq_getElem hid
      rw [List.getElem?_eq_getElem (by omega : id < (phase1 fs lang st.parse_failures
        st.pending st.graph st.unresolvable_files st.unresolved []).1.modules.length)] at this
      rw [Option.some.inj this]
      exact hpath
    · obtain ⟨x, hx, hpx⟩ := List.mem_map.mp hnew
      have hxnf := (phase2_snd_sublist cl _ _).subset hx
      obtain ⟨hxb, hxl, _⟩ := p7 x hxnf
      have hxfail : x ∈ (phase2 cl (phase1 fs lang st.parse_failures st.pending
          st.graph st.unresolvable_files st.unresolved []).1
          (phase1 fs lang st.parse_failures st.pending st.graph
            st.unresolvable_files st.unresolved []).2.2.2).2.filter
          (fun mid => (lang.parse ((phase1 fs lang st.parse_failures st.pending
            st.graph st.unresolvable_files st.unresolved []).1.modulePath mid)).isNone) := by
        rw [List.mem_filter]
        refine ⟨hx, ?_⟩
        rw [hpx, hnone]
        rfl
      refine ⟨List.mem_append_right _ (List.mem_map.mpr ⟨x, hxfail, hpx⟩),
        x, hxl, ?_, List.mem_append_right _ hxfail⟩
      rw [← modulePath_eq _ _ hxl]
      exact hpx

theorem buildLoop_inv (fs : Fs) (lang : Lang)
    (cl : String → Option (ParseResult × List (Option String))) :
    ∀ (fuel : Nat) (st : BuildState), BuildInv lang st →
      BuildInv lang (buildLoop fs lang cl fuel st) := by
  intro fuel
  induction fuel with
  | zero => intro st h; exact h
  | succ n ih =>
    intro st h
    unfold buildLoop
    by_cases hp : st.pending.isEmpty = true
    · rw [if_pos hp]; exact h
    · rw [if_neg hp]; exact ih _ (buildStep_inv fs lang cl st h)

/-- The bootstrap state of `build_graph` satisfies the invariant, hence so
does every state the build reaches. -/
theorem build_graph_inv (fs : Fs) (lang : Lang)
    (cl : String → Option (ParseResult × List (Option String)))
    (entry : String) (fuel : Nat) :
    BuildInv lang (build_graph fs lang cl entry fuel) := by
  unfold build_graph
  dsimp only
  apply buildLoop_inv
  have hw1 : (ModuleGraph.new.add_module entry (match fs entry with
      | some m => m.size
      | none => 0) none).1.WF :=
    ModuleGraph.wf_add_module _ _ _ _ ModuleGraph.wf_new
  have hi1 : (ModuleGraph.new.add_module entry (match fs entry with
      | some m => m.size
      | none => 0) none).1.IndexWF :=
    ModuleGraph.indexwf_add_module _ _ _ _ ModuleGraph.indexwf_new
  cases hcl : cl entry with
  | some rr =>
    refine ⟨hw1, hi1, ?_, ?_, ?_, ?_, ?_, ?_⟩
    · intro tpl htpl
      rw [List.mem_singleton] at htpl
      subst htpl
      exact ⟨Nat.zero_lt_one, by simp⟩
    · intro id h; simp at h
    · intro id h; simp at h
    · exact List.nodup_nil
    · intro p hp; simp at hp
    · intro p hp; simp at hp
  | none =>
    cases hpe : lang.parse entry with
    | some res =>
      refine ⟨hw1, hi1, ?_, ?_, ?_, ?_, ?_, ?_⟩
      · intro tpl htpl
        rw [List.mem_singleton] at htpl
        subst htpl
        exact ⟨Nat.zero_lt_one, by simp⟩
      · intro id h; simp at h
      · intro id h; simp at h
      · exact List.nodup_singleton _
      · intro p hp
        rw [List.mem_singleton] at hp
        subst hp
        refine ⟨0, ?_⟩
        show List.lookup p ([] ++ [(p, 0)]) = some 0
        simp [List.lookup_cons]
      · intro p hp hnone
        rw [List.mem_singleton] at hp
        subst hp
        rw [hpe] at hnone
        exact Option.noConfusion hnone
    | none =>
      refine ⟨hw1, hi1, ?_, ?_, ?_, ?_, ?_, ?_⟩
      · intro tpl htpl; simp at htpl
      · intro id h
        rw [List.mem_singleton] at h
        subst h
        exact Nat.zero_lt_one
      · intro id h
        rw [List.mem_singleton] at h
        subst h
        rfl
      · exact List.nodup_singleton _
      · intro p hp
        rw [List.mem_singleton] at hp
        subst hp
        refine ⟨0, ?_⟩
        show List.lookup p ([] ++ [(p, 0)]) = some 0
        simp [List.lookup_cons]
      · intro p hp hnone
        rw [List.mem_singleton] at hp
        subst hp
        exact ⟨List.mem_singleton.mpr rfl, 0, Nat.zero_lt_one, rfl,
          List.mem_singleton.mpr rfl⟩

/-! ## Claim C7: parse failures degrade gracefully -/

/-- Claim C7: within a single build, every file whose parse fails produces
a warning (to stderr in the source; the `warnings` field here), is added to
the parse-failure set, is parsed exactly once during the build (never
retried), and remains in the graph as a module with no outgoing edges; the
build itself is total and returns a result for every input and every
fuel. -/
theorem C7_parse_failure_graceful (fs : Fs) (lang : Lang)
    (cl : String → Option (ParseResult × List (Option String)))
    (entry : String) (fuel : Nat) (p : String)
    (hlog : p ∈ (build_graph fs lang cl entry fuel).parseLog)
    (hfail : lang.parse p = none) :
    p ∈ (build_graph fs lang cl entry fuel).warnings ∧
    (build_graph fs lang cl entry fuel).parseLog.count p = 1 ∧
    ∃ id, ∃ h : id < (build_graph fs lang cl entry fuel).graph.modules.length,
      ((build_graph fs lang cl entry fuel).graph.modules[id]).path = p ∧
      id ∈ (build_graph fs lang cl entry fuel).parse_failures ∧
      (build_graph fs lang cl entry fuel).graph.outgoing_edges id = [] := by
  have hinv := build_graph_inv fs lang cl entry fuel
  obtain ⟨hwarn, id, hlt, hpath, hmem⟩ := hinv.log_failed p hlog hfail
  exact ⟨hwarn, List.count_eq_one_of_mem hinv.log_nodup hlog, id, hlt, hpath,
    hmem, hinv.failures_leaf id hmem⟩

theorem C7_witness :
    "e.ts" ∈ (build_graph (fun _ => none)
      ⟨fun _ => none, fun _ _ => none, fun _ => none, fun _ => none,
       fun _ => false, fun q => q⟩ (fun _ => none) "e.ts" 1).warnings :=
  (C7_parse_failure_graceful (fun _ => none)
    ⟨fun _ => none, fun _ _ => none, fun _ => none, fun _ => none,
     fun _ => false, fun q => q⟩ (fun _ => none) "e.ts" 1 "e.ts"
    (by decide) rfl).1

/-! ## Claim C1: determinism of builds and of the saved cache envelope

`ParseCache::save` (cache.rs) clones the graph and the per-file entry map
into a `CacheEnvelope` and serializes it with `bitcode`.  The envelope
value is a deterministic function of the cache state, the filesystem
state, and the build outputs.  The serialized *bytes*, however, emit the
contents of `HashMap<PathBuf, CachedMtime>` (`file_mtimes`),
`HashMap<PathBuf, CachedParse>` (`parse_entries`),
`HashMap<PathBuf, ModuleId>` (`path_to_id`, inside the serialized graph)
and the `HashSet<String>`-derived `unresolved_specifiers` vector in their
iteration order, and Rust's `RandomState` randomizes that order per
process.  The embedding makes the per-run iteration orders explicit as a
`HashOrder` record of permutations; graph construction in walker.rs never
iterates a hash container (maps are only probed by key; the queue,
frontier and result vectors are ordered, and the parallel collects are
order-preserving), so `build_graph` does not take a `HashOrder` at all,
while the byte encoder does. -/

/-- The `file_mtimes` map built by `save` (parallel stat of every module
path, order-preserving collect; files whose metadata or mtime read fails
are skipped).  Module paths are distinct, so this association list is the
map's graph; its iteration order is supplied separately at encoding. -/
def save_file_mtimes (fs : Fs) (g : ModuleGraph) : List (String × CachedMtime) :=
  g.modules.filterMap (fun m =>
    match fs m.path with
    | some meta =>
      match meta.mtime with
      | some mt => some (m.path, ⟨mt, meta.size⟩)
      | none => none
    | none => none)

/-- `ParseCache::save`, up to serialization: the envelope value written for
this cache, filesystem and build output. -/
def ParseCache.save_envelope (c : ParseCache) (fs : Fs) (entry : String)
    (g : ModuleGraph) (unresolved_specifiers : List String)
    (unresolvable_dynamic : Nat) : CacheEnvelope :=
  { version := CACHE_VERSION,
    parse_entries := c.entries,
    graph_cache := some
      { entry := entry, graph := g, file_mtimes := save_file_mtimes fs g,
        unresolved_specifiers := unresolved_specifiers,
        unresolvable_dynamic := unresolvable_dynamic } }

/-- One process run's hash-container iteration orders (that is, the
observable effect of the process's random hash seed). -/
structure HashOrder where
  mtimes : List (String × CachedMtime) → List (String × CachedMtime)
  entriesOrder : List (String × CachedParse) → List (String × CachedParse)
  ptoi : List (String × Nat) → List (String × Nat)
  specs : List String → List String

/-- A legitimate iteration order only reorders; it never drops, duplicates
or invents entries. -/
structure HashOrder.Lawful (σ : HashOrder) : Prop where
  mtimes_perm : ∀ l, (σ.mtimes l).Perm l
  entries_perm : ∀ l, (σ.entriesOrder l).Perm l
  ptoi_perm : ∀ l, (σ.ptoi l).Perm l
  specs_perm : ∀ l, (σ.specs l).Perm l

/-- The identity order. -/
def hashOrderId : HashOrder := ⟨id, id, id, id⟩

/-- The fully reversed order (e.g. the order a two-entry map gets under an
adversarial seed). -/
def hashOrderRev : HashOrder := ⟨List.reverse, List.reverse, List.reverse, List.reverse⟩

def encodeString (s : String) : List Nat :=
  s.length :: s.data.map Char.toNat

def encodeOptString : Option String → List Nat
  | none => [0]
  | some s => 1 :: encodeString s

def encodeKindTag : EdgeKind → Nat
  | EdgeKind.Static => 0
  | EdgeKind.Dynamic => 1
  | EdgeKind.TypeOnly => 2

def encodeModuleB (m : Module) : List Nat :=
  m.id :: encodeString m.path ++ [m.size_bytes] ++ encodeOptString m.package

def encodeEdgeB (e : Edge) : List Nat :=
  [e.id, e.fromId, e.toId, encodeKindTag e.kind] ++ encodeString e.specifier

def encodeList (f : α → List Nat) (l : List α) : List Nat :=
  l.length :: (l.map f).flatten

def encodeCachedMtimeEntry (pm : String × CachedMtime) : List Nat :=
  encodeString pm.1 ++ [pm.2.mtime_nanos, pm.2.size]

def encodeRawImport (ri : RawImport) : List Nat :=
  encodeString ri.specifier ++ [encodeKindTag ri.kind]

def encodeCachedParseEntry (pe : String × CachedParse) : List Nat :=
  encodeString pe.1 ++ [pe.2.mtime_nanos, pe.2.size] ++
    encodeList encodeRawImport pe.2.result.imports ++
    [pe.2.result.unresolvable_dynamic]

def encodePtoiEntry (pi2 : String × Nat) : List Nat :=
  encodeString pi2.1 ++ [pi2.2]

/-- Serialize a graph: ordered vectors as-is; the `path_to_id` map in the
run's iteration order. -/
def encodeGraphB (σ : HashOrder) (g : ModuleGraph) : List Nat :=
  encodeList encodeModuleB g.modules ++ encodeList encodeEdgeB g.edges ++
    encodeList (encodeList (fun n => [n])) g.forward_adj ++
    encodeList encodePtoiEntry (σ.ptoi g.path_to_id)

/-- Serialize an envelope under the run's hash iteration orders. -/
def encodeEnvelope (σ : HashOrder) (e : CacheEnvelope) : List Nat :=
  e.version :: encodeList encodeCachedParseEntry (σ.entriesOrder e.parse_entries) ++
    (match e.graph_cache with
     | none => [0]
     | some cg =>
       1 :: (encodeString cg.entry ++ encodeGraphB σ cg.graph ++
         encodeList encodeCachedMtimeEntry (σ.mtimes cg.file_mtimes) ++
         encodeList encodeString cg.unresolved_specifiers ++
         [cg.unresolvable_dynamic]))

/-- One full run: build, collect the unresolved-specifier set in the run's
`HashSet` iteration order, and serialize the saved envelope.  The count
passed to `save` is the total of the per-file unresolvable-dynamic counts
(spec §3).  The `BuildState` itself does not depend on `σ`. -/
def buildAndSave (fs : Fs) (lang : Lang)
    (cl : String → Option (ParseResult × List (Option String)))
    (c : ParseCache) (entry : String) (fuel : Nat) (σ : HashOrder) : List Nat :=
  encodeEnvelope σ
    (c.save_envelope fs entry (build_graph fs lang cl entry fuel).graph
      (σ.specs (build_graph fs lang cl entry fuel).unresolved)
      (((build_graph fs lang cl entry fuel).unresolvable_files.map
        (fun pn => pn.2)).sum))

/-- Counterexample to claim C1 as stated: two runs over the identical
filesystem state (a two-file project, `a` importing `./b`), differing only
in their (legitimate, permutation-only) hash-container iteration orders,
write different cache-file bytes — the envelope serializes `HashMap` and
`HashSet` contents in iteration order, which Rust's `RandomState`
randomizes per process. -/
theorem C1_counterexample :
    hashOrderId.Lawful ∧ hashOrderRev.Lawful ∧
    buildAndSave
      (fun p => if p = "a" then some ⟨some 1, 10⟩
        else if p = "b" then some ⟨some 2, 20⟩ else none)
      ⟨fun p => if p = "a" then some ⟨[⟨"./b", EdgeKind.Static⟩], 0⟩
        else some ⟨[], 0⟩,
       fun _ spec => if spec = "./b" then some "b" else none,
       fun _ => none, fun _ => none, fun _ => true, fun q => q⟩
      (fun _ => none) ParseCache.new "a" 4 hashOrderId ≠
    buildAndSave
      (fun p => if p = "a" then some ⟨some 1, 10⟩
        else if p = "b" then some ⟨some 2, 20⟩ else none)
      ⟨fun p => if p = "a" then some ⟨[⟨"./b", EdgeKind.Static⟩], 0⟩
        else some ⟨[], 0⟩,
       fun _ spec => if spec = "./b" then some "b" else none,
       fun _ => none, fun _ => none, fun _ => true, fun q => q⟩
      (fun _ => none) ParseCache.new "a" 4 hashOrderRev := by
  refine ⟨⟨fun l => List.Perm.refl l, fun l => List.Perm.refl l,
    fun l => List.Perm.refl l, fun l => List.Perm.refl l⟩,
    ⟨fun l => List.reverse_perm l, fun l => List.reverse_perm l,
     fun l => List.reverse_perm l, fun l => List.reverse_perm l⟩, ?_⟩
  decide

/-- Claim C1, amended: two builds over identical filesystem state produce
module-id-for-module-id identical graphs (the builder never iterates a
hash container, so its output does not depend on the process's hash seed),
and the cache envelopes subsequently written by `save` are identical as
values — same version, same per-file parse-entry map, same entry path,
same graph, same file-mtime map, same unresolvable-dynamic count, and
unresolved-specifier vectors equal as multisets (the vector is a `HashSet`
iterated in seed order) — though not necessarily byte-identical. -/
theorem C1_determinism_up_to_hash_order (fs : Fs) (lang : Lang)
    (cl : String → Option (ParseResult × List (Option String)))
    (c : ParseCache) (entry : String) (fuel : Nat) (n : Nat)
    (σ₁ σ₂ : HashOrder) (h₁ : σ₁.Lawful) (h₂ : σ₂.Lawful) :
    (build_graph fs lang cl entry fuel).graph.modules =
      (build_graph fs lang cl entry fuel).graph.modules ∧
    (build_graph fs lang cl entry fuel).graph.edges =
      (build_graph fs lang cl entry fuel).graph.edges ∧
    (c.save_envelope fs entry (build_graph fs lang cl entry fuel).graph
        (σ₁.specs (build_graph fs lang cl entry fuel).unresolved) n).version =
      (c.save_envelope fs entry (build_graph fs lang cl entry fuel).graph
        (σ₂.specs (build_graph fs lang cl entry fuel).unresolved) n).version ∧
    (c.save_envelope fs entry (build_graph fs lang cl entry fuel).graph
        (σ₁.specs (build_graph fs lang cl entry fuel).unresolved) n).parse_entries =
      (c.save_envelope fs entry (build_graph fs lang cl entry fuel).graph
        (σ₂.specs (build_graph fs lang cl entry fuel).unresolved) n).parse_entries ∧
    (∃ cg₁ cg₂,
      (c.save_envelope fs entry (build_graph fs lang cl entry fuel).graph
        (σ₁.specs (build_graph fs lang cl entry fuel).unresolved) n).graph_cache =
          some cg₁ ∧
      (c.save_envelope fs entry (build_graph fs lang cl entry fuel).graph
        (σ₂.specs (build_graph fs lang cl entry fuel).unresolved) n).graph_cache =
          some cg₂ ∧
      cg₁.entry = cg₂.entry ∧ cg₁.graph = cg₂.graph ∧
      cg₁.file_mtimes = cg₂.file_mtimes ∧
      cg₁.unresolved_specifiers.Perm cg₂.unresolved_specifiers ∧
      cg₁.unresolvable_dynamic = cg₂.unresolvable_dynamic) := by
  refine ⟨rfl, rfl, rfl, rfl, _, _, rfl, rfl, rfl, rfl, rfl, ?_, rfl⟩
  exact (h₁.specs_perm _).trans (h₂.specs_perm _).symm

theorem C1_witness :
    ((ParseCache.new.save_envelope (fun _ => none) "e"
        ModuleGraph.new (hashOrderId.specs ["x", "y"]) 0).graph_cache.map
      (fun cg => cg.unresolved_specifiers)).getD [] =
    ["x", "y"] ∧
    (["x", "y"] : List String).Perm (hashOrderRev.specs ["x", "y"]) := by
  constructor
  · rfl
  · have h := C1_determinism_up_to_hash_order (fun _ => none)
      ⟨fun _ => none, fun _ _ => none, fun _ => none, fun _ => none,
       fun _ => false, fun q => q⟩
      (fun _ => none) ParseCache.new "e" 0 0 hashOrderId hashOrderRev
      ⟨fun l => List.Perm.refl l, fun l => List.Perm.refl l,
       fun l => List.Perm.refl l, fun l => List.Perm.refl l⟩
      ⟨fun l => List.reverse_perm l, fun l => List.reverse_perm l,
       fun l => List.reverse_perm l, fun l => List.reverse_perm l⟩
    obtain ⟨-, -, -, -, cg₁, cg₂, hg₁, hg₂, -, -, -, hperm, -⟩ := h
    decide

end Chainsaw
